import Mathlib

/-!
Verification development for the sileo-vue toast library.

The definitions below are a shallow embedding of
`src/packages/sileo-vue/src/store.ts` (constants, option merging, toast
building, the toast registry and its API), of the viewport scheduler
component (`SileoToaster.vue`), and of the geometry computation of the
per-toast component (`SileoToast.vue`).  JavaScript `undefined`/`null`
are modelled with `Option` (a field of TS type `number | null` that is
also optional becomes `Option (Option Int)`), machine numbers become
`Int`/`Nat`/`Rat`, and the timer/event behaviour of the single-threaded
runtime is modelled as a small-step transition system (`runEv`) over a
system state (`Sys`) holding the registry, the pending exit-removal
timeouts and the optional mounted viewport.
-/

namespace SileoVue

/-! ## Data model (`types.ts`) -/

inductive SileoState
  | success
  | loading
  | error
  | warning
  | info
  | action
deriving DecidableEq

inductive SileoPosition
  | topLeft
  | topCenter
  | topRight
  | bottomLeft
  | bottomCenter
  | bottomRight
deriving DecidableEq

structure SileoStyles where
  title : Option String := none
  description : Option String := none
  badge : Option String := none
  button : Option String := none
deriving DecidableEq

/-- The `SileoButton`: the `onClick` callback is opaque to the store and is not
modelled. -/
structure SileoButton where
  title : String
deriving DecidableEq

/-- The `autopilot` option: `boolean | { expand?: number; collapse?: number }`. -/
inductive Autopilot
  | bool (b : Bool)
  | config (expand : Option Int) (collapse : Option Int)
deriving DecidableEq

/-- The `InternalSileoOptions` from `store.ts`: every field optional.  The
`duration` field has TS type `number | null` and is itself optional, hence
`Option (Option Int)`: `none` = absent/undefined, `some none` = `null`,
`some (some d)` = the number `d`.  `icon` (`VNode | null`, optional) is
modelled the same way with an opaque `String` payload. -/
structure InternalSileoOptions where
  id : Option String := none
  state : Option SileoState := none
  title : Option String := none
  description : Option String := none
  position : Option SileoPosition := none
  duration : Option (Option Int) := none
  icon : Option (Option String) := none
  styles : SileoStyles := {}
  fill : Option String := none
  roundness : Option Int := none
  autopilot : Option Autopilot := none
  button : Option SileoButton := none
deriving DecidableEq

/-- The `SileoItem`: a fully-built registry record.  `position` is always set
by `buildSileoItem`, `exiting` is absent (`undefined`, i.e. falsy) on a
freshly built item. -/
structure SileoItem where
  id : String
  instanceId : Nat
  state : Option SileoState := none
  title : Option String := none
  description : Option String := none
  position : SileoPosition
  duration : Option (Option Int) := none
  icon : Option (Option String) := none
  styles : SileoStyles := {}
  fill : Option String := none
  roundness : Option Int := none
  autopilot : Option Autopilot := none
  button : Option SileoButton := none
  exiting : Bool := false
  autoExpandDelayMs : Option Int := none
  autoCollapseDelayMs : Option Int := none
deriving DecidableEq

/-! ## Constants (`store.ts` lines 5-8) -/

def DEFAULT_DURATION : Int := 6000

/-- The `EXIT_DURATION = DEFAULT_DURATION * 0.1` (= 600); kept as a `Nat`
because it is used as a timer delay on the clock. -/
def EXIT_DURATION : Nat := 600

/-- The `AUTO_EXPAND_DELAY = DEFAULT_DURATION * 0.025` (= 150). -/
def AUTO_EXPAND_DELAY : Int := DEFAULT_DURATION / 40

/-- The `AUTO_COLLAPSE_DELAY = DEFAULT_DURATION - 2000` (= 4000, a module-level
constant computed from the *default* duration, not from a toast's own
duration). -/
def AUTO_COLLAPSE_DELAY : Int := DEFAULT_DURATION - 2000

def defaultToastId : String := "sileo-default"

/-! ## Pure option processing (`store.ts` lines 77-111) -/

/-- The `merged.duration ?? DEFAULT_DURATION`: JS `??` replaces both `undefined`
(outer `none`) and `null` (`some none`) by the default. -/
def coalesceDuration (d : Option (Option Int)) : Int :=
  match d with
  | some (some n) => n
  | _ => DEFAULT_DURATION

/-- The `cfg?.expand` where `cfg` is the autopilot option when it is an object. -/
def autopilotExpandOverride : Option Autopilot → Option Int
  | some (Autopilot.config e _) => e
  | _ => none

/-- The `cfg?.collapse` where `cfg` is the autopilot option when it is an object. -/
def autopilotCollapseOverride : Option Autopilot → Option Int
  | some (Autopilot.config _ c) => c
  | _ => none

/-- The `Math.min(duration, Math.max(0, v))`. -/
def clampTo (duration v : Int) : Int := min duration (max 0 v)

structure AutoDelays where
  expandDelayMs : Option Int := none
  collapseDelayMs : Option Int := none
deriving DecidableEq

/-- The `resolveAutopilot` (`store.ts` lines 77-88).  The guard
`opts.autopilot === false || !duration || duration <= 0` is `autopilot` equal
to the boolean `false`, or `duration` null, or `duration` falsy/nonpositive
(i.e. `duration ≤ 0`). -/
def resolveAutopilot (opts : InternalSileoOptions) (duration : Option Int) :
    AutoDelays :=
  match duration with
  | none => {}
  | some d =>
    if opts.autopilot = some (Autopilot.bool false) ∨ d ≤ 0 then {}
    else
      { expandDelayMs :=
          some (clampTo d ((autopilotExpandOverride opts.autopilot).getD AUTO_EXPAND_DELAY))
        collapseDelayMs :=
          some (clampTo d ((autopilotCollapseOverride opts.autopilot).getD AUTO_COLLAPSE_DELAY)) }

/-- Key-wise merge of the `styles` sub-object:
`{ ...store.options?.styles, ...options.styles }`. -/
def mergeStyles (base opts : SileoStyles) : SileoStyles :=
  { title := opts.title <|> base.title
    description := opts.description <|> base.description
    badge := opts.badge <|> base.badge
    button := opts.button <|> base.button }

/-- The `mergeOptions` (`store.ts` lines 90-94): per-call options win on every
scalar field, `styles` is merged key-wise. -/
def mergeOptions (base opts : InternalSileoOptions) : InternalSileoOptions :=
  { id := opts.id <|> base.id
    state := opts.state <|> base.state
    title := opts.title <|> base.title
    description := opts.description <|> base.description
    position := opts.position <|> base.position
    duration := opts.duration <|> base.duration
    icon := opts.icon <|> base.icon
    styles := mergeStyles base.styles opts.styles
    fill := opts.fill <|> base.fill
    roundness := opts.roundness <|> base.roundness
    autopilot := opts.autopilot <|> base.autopilot
    button := opts.button <|> base.button }

/-- The `buildSileoItem` (`store.ts` lines 96-111).  `instanceId` stands for the
fresh value produced by `generateId()` (the incremented module counter). -/
def buildSileoItem (merged : InternalSileoOptions) (id : String)
    (fallbackPosition : Option SileoPosition) (storePosition : SileoPosition)
    (instanceId : Nat) : SileoItem :=
  let duration := coalesceDuration merged.duration
  let auto := resolveAutopilot merged (some duration)
  { id := id
    instanceId := instanceId
    state := merged.state
    title := merged.title
    description := merged.description
    position := (merged.position <|> fallbackPosition).getD storePosition
    duration := merged.duration
    icon := merged.icon
    styles := merged.styles
    fill := merged.fill
    roundness := merged.roundness
    autopilot := merged.autopilot
    button := merged.button
    exiting := false
    autoExpandDelayMs := auto.expandDelayMs
    autoCollapseDelayMs := auto.collapseDelayMs }

/-! ## Toast geometry (`SileoToast.vue`) -/

/-- The `HEIGHT = 40`: collapsed pill height in px. -/
def HEIGHT : ℚ := 40

/-- The `MIN_EXPAND_RATIO = 2.25` in the source (renamed here). -/
def MIN_EXPAND_FACTOR : ℚ := 225 / 100

/-- The `minExpanded = HEIGHT * MIN_EXPAND_RATIO` (= 90). -/
def minExpanded : ℚ := HEIGHT * MIN_EXPAND_FACTOR

/-- The `rawExpanded`: `hasDesc ? Math.max(minExpanded, HEIGHT + contentHeight)
: minExpanded`. -/
def rawExpanded (hasDesc : Bool) (contentHeight : ℚ) : ℚ :=
  if hasDesc then max minExpanded (HEIGHT + contentHeight) else minExpanded

/-! ## The system state

`Sys` combines the module-level store of `store.ts` (toast list, id
counter, configured default position/options), the pending exit-removal
`setTimeout`s created by `dismissToast` (both the copy in `store.ts` and
the identical copy in `SileoToaster.vue`), a millisecond clock, and the
state of the (at most one) mounted `SileoToaster` viewport. -/

/-- The `timeoutKey(t) = id + ":" + instanceId`. -/
def timeoutKey (t : SileoItem) : String × Nat := (t.id, t.instanceId)

/-- One entry of the viewport's `timers` map.  A JS `setTimeout` handle
stays in the map after firing until the listener prunes it; `live = false`
marks a fired (or otherwise dead) handle that still occupies its key. -/
structure TimerEntry where
  key : String × Nat
  due : Nat
  live : Bool
deriving DecidableEq

/-- Mounted-viewport state (`SileoToaster.vue`): the `toasts` ref (a copy
of the store list), the `hovered` flag, the `timers` map and the
`activeId` ref. -/
structure VpState where
  view : List SileoItem
  hovered : Bool
  timers : List TimerEntry
  activeId : Option String := none
deriving DecidableEq

structure Sys where
  clock : Nat
  toasts : List SileoItem
  counter : Nat
  storePosition : SileoPosition
  storeOptions : InternalSileoOptions
  /-- exit-removal `setTimeout`s: dismissed id together with absolute due
  time (`clock at dismissal + EXIT_DURATION`). -/
  pending : List (String × Nat)
  vp : Option VpState
  /-- the viewport's `position` prop (fixed for the component's life). -/
  vpPosition : SileoPosition
  /-- the viewport's `options` prop. -/
  vpOptions : InternalSileoOptions
deriving DecidableEq

/-- The `latest` (`SileoToaster.vue` lines 95-100): id of the last non-exiting
record, scanning from the end. -/
def latestId (items : List SileoItem) : Option String :=
  (items.reverse.find? fun t => !t.exiting).map fun t => t.id

/-- One loop iteration of `schedule` (`SileoToaster.vue` lines 78-90):
skip exiting records, skip keys already in the map, skip nonpositive
durations, otherwise register a fresh timer for the full duration. -/
def scheduleStep (clock : Nat) (ts : List TimerEntry) (item : SileoItem) :
    List TimerEntry :=
  if item.exiting then ts
  else if ts.any fun e => e.key = timeoutKey item then ts
  else if coalesceDuration item.duration ≤ 0 then ts
  else ts ++ [⟨timeoutKey item, clock + (coalesceDuration item.duration).toNat, true⟩]

/-- The `schedule` (`SileoToaster.vue` lines 75-91): when not hovered, give
every non-exiting record whose key has no map entry and whose coalesced
duration is positive a fresh dismiss timer for its full duration. -/
def schedule (clock : Nat) (hovered : Bool) (timers : List TimerEntry)
    (items : List SileoItem) : List TimerEntry :=
  if hovered then timers
  else items.foldl (scheduleStep clock) timers

/-- The store listener (`SileoToaster.vue` lines 170-187), run
synchronously on every store emission while mounted: copy the new list
into the `toasts` ref, prune timers whose key vanished, recompute
`activeId`, and (re)schedule dismiss timers. -/
def runListener (clock : Nat) (next : List SileoItem) (v : VpState) : VpState :=
  let keys := next.map timeoutKey
  let pruned := v.timers.filter fun e => keys.contains e.key
  { view := next
    hovered := v.hovered
    timers := schedule clock v.hovered pruned next
    activeId := latestId next }

/-- The `store.update(fn)`: replace the list and synchronously notify the
subscriber (the mounted viewport's listener), if any. -/
def storeUpdate (s : Sys) (f : List SileoItem → List SileoItem) : Sys :=
  let ts := f s.toasts
  { s with toasts := ts, vp := s.vp.map (runListener s.clock ts) }

/-! ## Toast API (`store.ts` lines 63-196) -/

/-- The `dismissToast` (`store.ts` lines 63-75, duplicated verbatim in
`SileoToaster.vue` lines 60-73): no-op when the id is absent or already
exiting; otherwise mark `exiting` (store update) and schedule removal in
`EXIT_DURATION` ms. -/
def dismissToast (s : Sys) (id : String) : Sys :=
  match s.toasts.find? (fun t => t.id = id) with
  | none => s
  | some item =>
    if item.exiting then s
    else
      let s1 := storeUpdate s fun prev =>
        prev.map fun t => if t.id = id then { t with exiting := true } else t
      { s1 with pending := s1.pending ++ [(id, s1.clock + EXIT_DURATION)] }

/-- The id `createToast` resolves: `merged.id ?? "sileo-default"`. -/
def resolvedId (s : Sys) (options : InternalSileoOptions) : String :=
  ((mergeOptions s.storeOptions options).id).getD defaultToastId

/-- The `createToast` (`store.ts` lines 113-127).  `generateId`'s `++idCounter`
is the `counter + 1` freshness source. -/
def createToast (s : Sys) (options : InternalSileoOptions) : Sys :=
  let live := s.toasts.filter fun t => !t.exiting
  let merged := mergeOptions s.storeOptions options
  let id := merged.id.getD defaultToastId
  let prev := live.find? fun t => t.id = id
  let instanceId := s.counter + 1
  let item := buildSileoItem merged id (prev.map fun t => t.position)
    s.storePosition instanceId
  let s' := { s with counter := instanceId }
  match prev with
  | some _ => storeUpdate s' fun p => p.map fun t => if t.id = id then item else t
  | none => storeUpdate s' fun p => (p.filter fun t => ¬(t.id = id)) ++ [item]

/-- The `updateToast` (`store.ts` lines 129-135): no-op when no record with
that id exists; otherwise rebuild against the existing record's position
and replace in place. -/
def updateToast (s : Sys) (id : String) (options : InternalSileoOptions) : Sys :=
  match s.toasts.find? (fun t => t.id = id) with
  | none => s
  | some existing =>
    let instanceId := s.counter + 1
    let item := buildSileoItem (mergeOptions s.storeOptions options) id
      (some existing.position) s.storePosition instanceId
    let s' := { s with counter := instanceId }
    storeUpdate s' fun prev => prev.map fun t => if t.id = id then item else t

/-- The `sileo.clear` (`store.ts` lines 192-195): with a position, drop records
at that position; with none, empty the registry outright. -/
def clearToasts (s : Sys) (position : Option SileoPosition) : Sys :=
  storeUpdate s fun prev =>
    match position with
    | some pos => prev.filter fun t => ¬(t.position = pos)
    | none => []

/-! ## Promise adapter (`store.ts` lines 156-188) -/

/-- The outcome of the asynchronous operation handed to `sileo.promise`:
fulfilled with a `T` or rejected with an `E`. -/
inductive OutcomeT (T E : Type) where
  | ok (data : T)
  | err (e : E)

/-- The `SileoOptions | ((x : A) => SileoOptions)`: a static options object or
a function of the operation's outcome. -/
inductive OptResolver (A : Type) where
  | static (o : InternalSileoOptions)
  | fn (f : A → InternalSileoOptions)

def resolveOpt {A : Type} : OptResolver A → A → InternalSileoOptions
  | OptResolver.static o, _ => o
  | OptResolver.fn f, a => f a

/-- The `SileoPromiseOptions`: `loading` is `Pick<SileoOptions, "title" | "icon">`. -/
structure SileoPromiseOptions (T E : Type) where
  loadingTitle : Option String := none
  loadingIcon : Option (Option String) := none
  success : OptResolver T
  error : OptResolver E
  action : Option (OptResolver T) := none
  position : Option SileoPosition := none

/-- The options object of the initial `createToast` call inside
`sileo.promise`: `{ ...opts.loading, state: "loading", duration: null,
position: opts.position }`. -/
def promiseLoadingOpts {T E : Type} (popts : SileoPromiseOptions T E) :
    InternalSileoOptions :=
  { state := some SileoState.loading
    title := popts.loadingTitle
    icon := popts.loadingIcon
    duration := some none
    position := popts.position }

/-- The id captured by `sileo.promise` from its initial `createToast`. -/
def promiseToastId {T E : Type} (s : Sys) (popts : SileoPromiseOptions T E) :
    String :=
  resolvedId s (promiseLoadingOpts popts)

/-- The `sileo.promise` (`store.ts` lines 156-188), with the operation's
already-determined outcome passed in (the single-threaded runtime runs
exactly one of the `then`/`catch` callbacks once the operation settles).
Returns the final system state together with the value handed back to the
caller (`return p`: the operation's own outcome, untouched). -/
def sileoPromise {T E : Type} (s : Sys) (outcome : OutcomeT T E)
    (popts : SileoPromiseOptions T E) : Sys × OutcomeT T E :=
  let id := promiseToastId s popts
  let s1 := createToast s (promiseLoadingOpts popts)
  let s2 :=
    match outcome with
    | OutcomeT.ok data =>
      match popts.action with
      | some act =>
        updateToast s1 id
          { resolveOpt act data with state := some SileoState.action, id := some id }
      | none =>
        updateToast s1 id
          { resolveOpt popts.success data with
              state := some SileoState.success, id := some id }
    | OutcomeT.err e =>
      updateToast s1 id
        { resolveOpt popts.error e with state := some SileoState.error, id := some id }
  (s2, outcome)

/-- The state the promise adapter drives the toast to, given the outcome:
`action` on fulfillment when an `action` option was supplied, otherwise
`success`; `error` on rejection. -/
def promiseFinalState {T E : Type} (outcome : OutcomeT T E)
    (popts : SileoPromiseOptions T E) : SileoState :=
  match outcome with
  | OutcomeT.ok _ =>
    match popts.action with
    | some _ => SileoState.action
    | none => SileoState.success
  | OutcomeT.err _ => SileoState.error

/-! ## Events and the step function -/

inductive Ev where
  /-- a `createToast` call (`show`/`success`/`error`/`warning`/`info`/`action`). -/
  | create (options : InternalSileoOptions)
  /-- an `updateToast` call (the promise adapter's resolution callback). -/
  | update (id : String) (options : InternalSileoOptions)
  /-- The `sileo.dismiss(id)`. -/
  | dismiss (id : String)
  /-- The `sileo.clear(position?)`. -/
  | clear (position : Option SileoPosition)
  /-- an exit-removal `setTimeout` callback firing. -/
  | removalFire (id : String) (due : Nat)
  /-- the viewport mounts (`onMounted`: `syncConfig` + subscribe). -/
  | mount
  /-- the viewport unmounts (`onUnmounted`: unsubscribe + `clearAllTimers`). -/
  | unmount
  /-- The `mouseenter` on the toast with this id. -/
  | enter (id : String)
  /-- The `mouseleave` from the toast with this id. -/
  | leave (id : String)
  /-- the toast's `dismiss` emit handled by the viewport. -/
  | vpDismiss (id : String)
  /-- a per-toast dismiss timer of the viewport firing. -/
  | vpTimerFire (key : String × Nat) (due : Nat)
  /-- The `n` milliseconds pass with no timer becoming due strictly inside the
  interval (the JS event loop fires due timers before time moves past them). -/
  | tick (n : Nat)

/-- The timers map of the viewport, empty when unmounted. -/
def vpTimers : Option VpState → List TimerEntry
  | none => []
  | some v => v.timers

/-- Single step of the system.  `none` means the event is not enabled in
this state. -/
def runEv (s : Sys) (e : Ev) : Option Sys :=
  match e with
  | Ev.create options => some (createToast s options)
  | Ev.update id options => some (updateToast s id options)
  | Ev.dismiss id => some (dismissToast s id)
  | Ev.clear position => some (clearToasts s position)
  | Ev.removalFire id due =>
    if (id, due) ∈ s.pending ∧ due = s.clock then
      some (storeUpdate
        { s with pending := s.pending.filter fun p => ¬(p = (id, due)) }
        fun prev => prev.filter fun t => ¬(t.id = id))
    else none
  | Ev.mount =>
    match s.vp with
    | some _ => none
    | none =>
      some { s with
        storePosition := s.vpPosition
        storeOptions := s.vpOptions
        vp := some { view := s.toasts, hovered := false, timers := [], activeId := none } }
  | Ev.unmount =>
    match s.vp with
    | some _ => some { s with vp := none }
    | none => none
  | Ev.enter id =>
    match s.vp with
    | none => none
    | some v =>
      if v.hovered then some { s with vp := some { v with activeId := some id } }
      else
        let v1 := { v with activeId := some id, hovered := true, timers := ([] : List TimerEntry) }
        some { s with vp := some v1 }
  | Ev.leave _ =>
    match s.vp with
    | none => none
    | some v =>
      let v1 := { v with activeId := latestId v.view }
      if v.hovered then
        let v2 := { v1 with hovered := false
                            timers := schedule s.clock false v1.timers v1.view }
        some { s with vp := some v2 }
      else some { s with vp := some v1 }
  | Ev.vpDismiss id =>
    match s.vp with
    | none => none
    | some _ => some (dismissToast s id)
  | Ev.vpTimerFire key due =>
    match s.vp with
    | none => none
    | some v =>
      if (v.timers.any fun en => en.key = key ∧ en.due = due ∧ en.live) ∧ due = s.clock
      then
        let v1 := { v with timers := v.timers.map fun en =>
          if en.key = key ∧ en.due = due then { en with live := false } else en }
        some (dismissToast { s with vp := some v1 } key.1)
      else none
  | Ev.tick n =>
    if 0 < n
        ∧ (∀ p ∈ s.pending, p.2 < s.clock ∨ s.clock + n ≤ p.2)
        ∧ (∀ en ∈ vpTimers s.vp, en.live → en.due < s.clock ∨ s.clock + n ≤ en.due)
    then some { s with clock := s.clock + n }
    else none

/-- Run a list of events in order; `none` as soon as one is not enabled. -/
def run (s : Sys) : List Ev → Option Sys
  | [] => some s
  | e :: es =>
    match runEv s e with
    | some s' => run s' es
    | none => none

/-- The initial system: empty registry, counter 0, default position
`top-right`, no configured default options (`store.options = undefined`),
no pending removals, viewport not mounted.  The viewport's props are the
two parameters. -/
def init (vpPos : SileoPosition) (vpOpts : InternalSileoOptions) : Sys :=
  { clock := 0
    toasts := []
    counter := 0
    storePosition := SileoPosition.topRight
    storeOptions := {}
    pending := []
    vp := none
    vpPosition := vpPos
    vpOptions := vpOpts }

/-- Reachability from some initial state through enabled events. -/
inductive Reachable : Sys → Prop where
  | init (vpPos : SileoPosition) (vpOpts : InternalSileoOptions) :
      Reachable (init vpPos vpOpts)
  | step (s : Sys) (e : Ev) (s' : Sys) :
      Reachable s → runEv s e = some s' → Reachable s'

/-! ## Basic lemmas about the step function -/

theorem storeUpdate_toasts (s : Sys) (f : List SileoItem → List SileoItem) :
    (storeUpdate s f).toasts = f s.toasts := rfl

theorem storeUpdate_counter (s : Sys) (f : List SileoItem → List SileoItem) :
    (storeUpdate s f).counter = s.counter := rfl

theorem storeUpdate_clock (s : Sys) (f : List SileoItem → List SileoItem) :
    (storeUpdate s f).clock = s.clock := rfl

theorem storeUpdate_pending (s : Sys) (f : List SileoItem → List SileoItem) :
    (storeUpdate s f).pending = s.pending := rfl

theorem storeUpdate_storeOptions (s : Sys) (f : List SileoItem → List SileoItem) :
    (storeUpdate s f).storeOptions = s.storeOptions := rfl

theorem storeUpdate_vp (s : Sys) (f : List SileoItem → List SileoItem) :
    (storeUpdate s f).vp = s.vp.map (runListener s.clock (f s.toasts)) := rfl

/-- The `dismissToast` either leaves the whole system unchanged (id absent, or
found record already exiting) or marks the id's records exiting and
appends a removal timeout due `EXIT_DURATION` from now. -/
theorem dismissToast_eq_or (s : Sys) (id : String) :
    dismissToast s id = s ∨
      ((∃ item, s.toasts.find? (fun t => t.id = id) = some item ∧ item.exiting = false) ∧
        dismissToast s id =
          { storeUpdate s
              (fun prev => prev.map fun t => if t.id = id then { t with exiting := true } else t)
            with pending := s.pending ++ [(id, s.clock + EXIT_DURATION)] }) := by
  unfold dismissToast
  cases hfind : s.toasts.find? (fun t => t.id = id) with
  | none => exact Or.inl rfl
  | some item =>
    by_cases hex : item.exiting
    · simp [hex]
    · right
      refine ⟨⟨item, rfl, by simpa using hex⟩, ?_⟩
      show (if item.exiting = true then s else _) = _
      rw [if_neg hex]
      rfl

/-- Mapping a function that preserves `id` over the registry preserves the
list of ids. -/
theorem map_ids_of_preserve {l : List SileoItem} {f : SileoItem → SileoItem}
    (hf : ∀ t ∈ l, (f t).id = t.id) :
    ((l.map f).map fun t => t.id) = l.map fun t => t.id := by
  rw [List.map_map]
  exact List.map_congr_left fun t ht => hf t ht

/-! ## The reachability invariant -/

/-- Invariant of every reachable system state:
1. registry ids are pairwise distinct (so at most one record — of any
   exiting status — per id);
2. every record's `instanceId` was drawn from the counter;
3. a mounted viewport's `toasts` ref mirrors the store, and while hovered
   its timers map is empty. -/
def InvP (s : Sys) : Prop :=
  ((s.toasts.map fun t => t.id).Nodup)
  ∧ (∀ t ∈ s.toasts, t.instanceId ≤ s.counter)
  ∧ (∀ v, s.vp = some v → v.view = s.toasts ∧ (v.hovered = true → v.timers = []))

theorem InvP_storeUpdate (s : Sys) (f : List SileoItem → List SileoItem)
    (h3 : ∀ v, s.vp = some v → v.hovered = true → v.timers = [])
    (h1 : ((f s.toasts).map fun t => t.id).Nodup)
    (h2 : ∀ t ∈ f s.toasts, t.instanceId ≤ s.counter) :
    InvP (storeUpdate s f) := by
  refine ⟨h1, h2, ?_⟩
  intro v hv
  rw [storeUpdate_vp] at hv
  cases hvp : s.vp with
  | none => rw [hvp] at hv; exact absurd hv (by simp)
  | some v0 =>
    rw [hvp] at hv
    have hveq : runListener s.clock (f s.toasts) v0 = v := by simpa using hv
    subst hveq
    constructor
    · rfl
    · intro hh
      have hh0 : v0.hovered = true := hh
      have htimers := h3 v0 hvp hh0
      simp [runListener, schedule, hh0, htimers]

/-- The item `createToast` builds (fresh `instanceId = counter + 1`). -/
def createdItem (s : Sys) (options : InternalSileoOptions) : SileoItem :=
  buildSileoItem (mergeOptions s.storeOptions options) (resolvedId s options)
    (((s.toasts.filter fun t => !t.exiting).find? fun t =>
        t.id = resolvedId s options).map fun t => t.position)
    s.storePosition (s.counter + 1)

theorem createdItem_id (s : Sys) (options : InternalSileoOptions) :
    (createdItem s options).id = resolvedId s options := rfl

theorem createdItem_exiting (s : Sys) (options : InternalSileoOptions) :
    (createdItem s options).exiting = false := rfl

theorem createdItem_instanceId (s : Sys) (options : InternalSileoOptions) :
    (createdItem s options).instanceId = s.counter + 1 := rfl

/-- The `createToast` characterized: replace in place when a live record with
the resolved id exists, otherwise filter out any (necessarily exiting)
same-id record and append. -/
theorem createToast_eq_or (s : Sys) (options : InternalSileoOptions) :
    ((∃ t, ((s.toasts.filter fun t => !t.exiting).find? fun t =>
          t.id = resolvedId s options) = some t) ∧
      createToast s options = storeUpdate { s with counter := s.counter + 1 }
        fun p => p.map fun t =>
          if t.id = resolvedId s options then createdItem s options else t) ∨
    ((((s.toasts.filter fun t => !t.exiting).find? fun t =>
          t.id = resolvedId s options) = none) ∧
      createToast s options = storeUpdate { s with counter := s.counter + 1 }
        fun p => (p.filter fun t => ¬(t.id = resolvedId s options)) ++
          [createdItem s options]) := by
  simp only [createToast, createdItem, resolvedId]
  cases hfind : (s.toasts.filter fun t => !t.exiting).find? fun t =>
      t.id = (mergeOptions s.storeOptions options).id.getD defaultToastId with
  | some t => exact Or.inl ⟨⟨t, rfl⟩, rfl⟩
  | none => exact Or.inr ⟨rfl, rfl⟩

/-- The item `updateToast` builds for an existing record. -/
def updatedItem (s : Sys) (id : String) (options : InternalSileoOptions)
    (existing : SileoItem) : SileoItem :=
  buildSileoItem (mergeOptions s.storeOptions options) id
    (some existing.position) s.storePosition (s.counter + 1)

theorem updateToast_eq_or (s : Sys) (id : String) (options : InternalSileoOptions) :
    (s.toasts.find? (fun t => t.id = id) = none ∧ updateToast s id options = s) ∨
    (∃ existing, s.toasts.find? (fun t => t.id = id) = some existing ∧
      updateToast s id options = storeUpdate { s with counter := s.counter + 1 }
        fun prev => prev.map fun t =>
          if t.id = id then updatedItem s id options existing else t) := by
  unfold updateToast updatedItem
  cases hfind : s.toasts.find? (fun t => t.id = id) with
  | none => exact Or.inl ⟨rfl, rfl⟩
  | some existing => exact Or.inr ⟨existing, rfl, rfl⟩

theorem updatedItem_id (s : Sys) (id : String) (options : InternalSileoOptions)
    (existing : SileoItem) : (updatedItem s id options existing).id = id := rfl

theorem updatedItem_instanceId (s : Sys) (id : String) (options : InternalSileoOptions)
    (existing : SileoItem) :
    (updatedItem s id options existing).instanceId = s.counter + 1 := rfl

theorem updatedItem_exiting (s : Sys) (id : String) (options : InternalSileoOptions)
    (existing : SileoItem) : (updatedItem s id options existing).exiting = false := rfl

/-- Replacing exactly the records with a given id by an item carrying that
same id preserves the list of ids. -/
theorem replace_ids {l : List SileoItem} {id : String} {item : SileoItem}
    (hitem : item.id = id) :
    ((l.map fun t => if t.id = id then item else t).map fun t => t.id) =
      l.map fun t => t.id := by
  apply map_ids_of_preserve
  intro t _
  by_cases h : t.id = id
  · simp [h, hitem]
  · simp [h]

theorem InvP_dismissToast {s : Sys} (h : InvP s) (id : String) :
    InvP (dismissToast s id) := by
  rcases dismissToast_eq_or s id with heq | ⟨-, heq⟩
  · rw [heq]; exact h
  · rw [heq]
    obtain ⟨h1, h2, h3⟩ := h
    have hids : ∀ t ∈ s.toasts,
        ((if t.id = id then { t with exiting := true } else t) : SileoItem).id = t.id := by
      intro t _; split <;> rfl
    have hsu := InvP_storeUpdate s
      (fun prev => prev.map fun t => if t.id = id then { t with exiting := true } else t)
      (fun v hv hh => (h3 v hv).2 hh)
      (by rw [map_ids_of_preserve hids]; exact h1)
      (by
        intro t ht
        rw [List.mem_map] at ht
        obtain ⟨t0, ht0, rfl⟩ := ht
        have := h2 t0 ht0
        split <;> simpa using this)
    obtain ⟨g1, g2, g3⟩ := hsu
    exact ⟨g1, g2, fun v hv => g3 v hv⟩

end SileoVue


namespace SileoVue

/-- Every enabled step preserves the invariant. -/
theorem InvP_step {s s' : Sys} {e : Ev} (h : InvP s) (he : runEv s e = some s') :
    InvP s' := by
  obtain ⟨h1, h2, h3⟩ := h
  cases e with
  | create options =>
    have hs' : createToast s options = s' := by simpa [runEv] using he
    subst hs'
    rcases createToast_eq_or s options with ⟨-, heq⟩ | ⟨-, heq⟩
    · rw [heq]
      apply InvP_storeUpdate
      · exact fun v hv hh => (h3 v hv).2 hh
      · show ((s.toasts.map _).map _).Nodup
        rw [replace_ids (createdItem_id s options)]
        exact h1
      · intro t ht
        rw [List.mem_map] at ht
        obtain ⟨t0, ht0, rfl⟩ := ht
        show _ ≤ s.counter + 1
        by_cases hid : t0.id = resolvedId s options
        · simp [hid, createdItem_instanceId]
        · simp only [if_neg hid]
          exact le_trans (h2 t0 ht0) (Nat.le_succ _)
    · rw [heq]
      apply InvP_storeUpdate
      · exact fun v hv hh => (h3 v hv).2 hh
      · show (((s.toasts.filter _) ++ [createdItem s options]).map _).Nodup
        rw [List.map_append]
        apply List.Nodup.append
        · exact h1.sublist ((s.toasts.filter_sublist).map _)
        · simp
        · intro a ha hb
          simp only [List.map_cons, List.map_nil, List.mem_singleton] at hb
          rw [createdItem_id] at hb
          simp only [List.mem_map, List.mem_filter] at ha
          obtain ⟨t0, ⟨ht0, hp⟩, rfl⟩ := ha
          rw [hb] at hp
          simp at hp
      · intro t ht
        show _ ≤ s.counter + 1
        rw [List.mem_append] at ht
        rcases ht with ht | ht
        · rw [List.mem_filter] at ht
          exact le_trans (h2 t ht.1) (Nat.le_succ _)
        · rw [List.mem_singleton] at ht
          rw [ht, createdItem_instanceId]
  | update id options =>
    have hs' : updateToast s id options = s' := by simpa [runEv] using he
    subst hs'
    rcases updateToast_eq_or s id options with ⟨-, heq⟩ | ⟨existing, -, heq⟩
    · rw [heq]; exact ⟨h1, h2, h3⟩
    · rw [heq]
      apply InvP_storeUpdate
      · exact fun v hv hh => (h3 v hv).2 hh
      · show ((s.toasts.map _).map _).Nodup
        rw [replace_ids (updatedItem_id s id options existing)]
        exact h1
      · intro t ht
        rw [List.mem_map] at ht
        obtain ⟨t0, ht0, rfl⟩ := ht
        show _ ≤ s.counter + 1
        by_cases hid : t0.id = id
        · simp [hid, updatedItem_instanceId]
        · simp only [if_neg hid]
          exact le_trans (h2 t0 ht0) (Nat.le_succ _)
  | dismiss id =>
    have hs' : dismissToast s id = s' := by simpa [runEv] using he
    subst hs'
    exact InvP_dismissToast ⟨h1, h2, h3⟩ id
  | clear position =>
    have hs' : clearToasts s position = s' := by simpa [runEv] using he
    subst hs'
    unfold clearToasts
    apply InvP_storeUpdate
    · exact fun v hv hh => (h3 v hv).2 hh
    · cases position with
      | none => simp
      | some pos => exact h1.sublist ((s.toasts.filter_sublist).map _)
    · cases position with
      | none => simp
      | some pos =>
        intro t ht
        rw [List.mem_filter] at ht
        exact h2 t ht.1
  | removalFire id due =>
    simp only [runEv] at he
    split at he
    · have hs' := Option.some.inj he
      subst hs'
      apply InvP_storeUpdate
      · exact fun v hv hh => (h3 v hv).2 hh
      · exact h1.sublist ((s.toasts.filter_sublist).map _)
      · intro t ht
        rw [List.mem_filter] at ht
        exact h2 t ht.1
    · exact absurd he (by simp)
  | mount =>
    simp only [runEv] at he
    cases hvp : s.vp with
    | some v => simp only [hvp] at he; exact absurd he (by simp)
    | none =>
      simp only [hvp] at he
      have hs' := Option.some.inj he
      subst hs'
      refine ⟨h1, h2, ?_⟩
      intro v hv
      have hveq := Option.some.inj hv
      subst hveq
      exact ⟨rfl, by intro hh; exact absurd hh (by simp)⟩
  | unmount =>
    simp only [runEv] at he
    cases hvp : s.vp with
    | none => simp only [hvp] at he; exact absurd he (by simp)
    | some v =>
      simp only [hvp] at he
      have hs' := Option.some.inj he
      subst hs'
      refine ⟨h1, h2, ?_⟩
      intro v' hv'
      exact absurd hv' (by simp)
  | enter id =>
    simp only [runEv] at he
    cases hvp : s.vp with
    | none => simp only [hvp] at he; exact absurd he (by simp)
    | some v =>
      simp only [hvp] at he
      by_cases hhov : v.hovered
      · rw [if_pos hhov] at he
        have hs' := Option.some.inj he
        subst hs'
        refine ⟨h1, h2, ?_⟩
        intro v' hv'
        have hveq := Option.some.inj hv'
        subst hveq
        refine ⟨(h3 v hvp).1, fun _ => (h3 v hvp).2 hhov⟩
      · rw [if_neg hhov] at he
        have hs' := Option.some.inj he
        subst hs'
        refine ⟨h1, h2, ?_⟩
        intro v' hv'
        have hveq := Option.some.inj hv'
        subst hveq
        exact ⟨(h3 v hvp).1, fun _ => rfl⟩
  | leave id =>
    simp only [runEv] at he
    cases hvp : s.vp with
    | none => simp only [hvp] at he; exact absurd he (by simp)
    | some v =>
      simp only [hvp] at he
      by_cases hhov : v.hovered
      · rw [if_pos hhov] at he
        have hs' := Option.some.inj he
        subst hs'
        refine ⟨h1, h2, ?_⟩
        intro v' hv'
        have hveq := Option.some.inj hv'
        subst hveq
        refine ⟨(h3 v hvp).1, ?_⟩
        intro hh
        exact absurd hh (by simp)
      · rw [if_neg hhov] at he
        have hs' := Option.some.inj he
        subst hs'
        refine ⟨h1, h2, ?_⟩
        intro v' hv'
        have hveq := Option.some.inj hv'
        subst hveq
        refine ⟨(h3 v hvp).1, ?_⟩
        intro hh
        exact absurd (hh : v.hovered = true) (by simpa using hhov)
  | vpDismiss id =>
    simp only [runEv] at he
    cases hvp : s.vp with
    | none => simp only [hvp] at he; exact absurd he (by simp)
    | some v =>
      simp only [hvp] at he
      have hs' : dismissToast s id = s' := Option.some.inj he
      subst hs'
      exact InvP_dismissToast ⟨h1, h2, h3⟩ id
  | vpTimerFire key due =>
    simp only [runEv] at he
    cases hvp : s.vp with
    | none => simp only [hvp] at he; exact absurd he (by simp)
    | some v =>
      simp only [hvp] at he
      split at he
      · have hs' := Option.some.inj he
        subst hs'
        apply InvP_dismissToast
        refine ⟨h1, h2, ?_⟩
        intro v' hv'
        have hveq := Option.some.inj hv'
        subst hveq
        refine ⟨(h3 v hvp).1, ?_⟩
        intro hh
        have htimers := (h3 v hvp).2 hh
        rw [htimers]
        rfl
      · exact absurd he (by simp)
  | tick n =>
    simp only [runEv] at he
    split at he
    · have hs' := Option.some.inj he
      subst hs'
      exact ⟨h1, h2, h3⟩
    · exact absurd he (by simp)

/-- Every reachable state satisfies the invariant. -/
theorem InvP_reachable {s : Sys} (h : Reachable s) : InvP s := by
  induction h with
  | init vpPos vpOpts =>
    refine ⟨by simp [init], by simp [init], ?_⟩
    intro v hv
    exact absurd hv (by simp [init])
  | step s e s' _ hrun ih => exact InvP_step ih hrun

end SileoVue

namespace SileoVue

/-! ## C9: expanded-height geometry -/

/-- C9: for a toast with describable content, the computed expanded height
equals the collapsed pill height (40) plus the measured content height,
floored at 2.25 times the collapsed height (90): for every non-negative
measured content height, `rawExpanded = max 90 (40 + contentHeight)`, so
it is never below 2.25 times the collapsed height. -/
theorem c9_expanded_height (ch : ℚ) (hch : 0 ≤ ch) :
    rawExpanded true ch = max 90 (40 + ch) ∧
      MIN_EXPAND_FACTOR * HEIGHT ≤ rawExpanded true ch := by
  have h90 : minExpanded = 90 := by
    norm_num [minExpanded, HEIGHT, MIN_EXPAND_FACTOR]
  constructor
  · simp only [rawExpanded, if_pos, h90, HEIGHT]
  · simp only [rawExpanded, if_pos, h90]
    have : MIN_EXPAND_FACTOR * HEIGHT = 90 := by
      norm_num [HEIGHT, MIN_EXPAND_FACTOR]
    rw [this]
    exact le_max_left _ _

/-- Witness for C9 at content height 10. -/
theorem c9_expanded_height_witness :
    (0 : ℚ) ≤ 10 ∧
      (rawExpanded true 10 = max 90 (40 + 10) ∧
        MIN_EXPAND_FACTOR * HEIGHT ≤ rawExpanded true 10) :=
  ⟨by norm_num, c9_expanded_height 10 (by norm_num)⟩

/-! ## C4: autopilot delay derivation -/

theorem resolveAutopilot_null (opts : InternalSileoOptions) :
    resolveAutopilot opts none = {} := rfl

theorem resolveAutopilot_off (opts : InternalSileoOptions) (d : Int)
    (h : opts.autopilot = some (Autopilot.bool false) ∨ d ≤ 0) :
    resolveAutopilot opts (some d) = {} := by
  unfold resolveAutopilot
  show (if opts.autopilot = some (Autopilot.bool false) ∨ d ≤ 0 then _ else _) = _
  rw [if_pos h]

theorem resolveAutopilot_on (opts : InternalSileoOptions) (d : Int)
    (hb : ¬(opts.autopilot = some (Autopilot.bool false))) (hd : 0 < d) :
    resolveAutopilot opts (some d) =
      { expandDelayMs :=
          some (clampTo d ((autopilotExpandOverride opts.autopilot).getD AUTO_EXPAND_DELAY))
        collapseDelayMs :=
          some (clampTo d ((autopilotCollapseOverride opts.autopilot).getD AUTO_COLLAPSE_DELAY)) } := by
  unfold resolveAutopilot
  show (if opts.autopilot = some (Autopilot.bool false) ∨ d ≤ 0 then _ else _) = _
  rw [if_neg (not_or.mpr ⟨hb, not_le.mpr hd⟩)]

theorem clampTo_bounds (d v : Int) (hd : 0 ≤ d) :
    0 ≤ clampTo d v ∧ clampTo d v ≤ d :=
  ⟨le_min hd (le_max_left 0 v), min_le_left d _⟩

theorem buildSileoItem_autoExpand (merged : InternalSileoOptions) (id : String)
    (fb : Option SileoPosition) (sp : SileoPosition) (iid : Nat) :
    (buildSileoItem merged id fb sp iid).autoExpandDelayMs =
      (resolveAutopilot merged (some (coalesceDuration merged.duration))).expandDelayMs := rfl

theorem buildSileoItem_autoCollapse (merged : InternalSileoOptions) (id : String)
    (fb : Option SileoPosition) (sp : SileoPosition) (iid : Nat) :
    (buildSileoItem merged id fb sp iid).autoCollapseDelayMs =
      (resolveAutopilot merged (some (coalesceDuration merged.duration))).collapseDelayMs := rfl

/-- C4 counterexample: with an explicit duration of 3000 and no autopilot
config, the built record's collapse delay is `clamp(AUTO_COLLAPSE_DELAY) =
clamp(4000) = 3000`, not `clamp(duration - 2000) = 1000` as the claim's
`duration − 2000` default would require. -/
theorem c4_collapse_default_counterexample :
    (buildSileoItem { duration := some (some 3000) } "x" none
        SileoPosition.topRight 1).autoCollapseDelayMs = some 3000
    ∧ clampTo 3000 (3000 - 2000) = 1000
    ∧ ¬((buildSileoItem { duration := some (some 3000) } "x" none
          SileoPosition.topRight 1).autoCollapseDelayMs =
        some (clampTo 3000 (3000 - 2000))) := by decide

/-- C4 (amended): delays are unset iff `autopilot === false` or the
resolved duration is null or nonpositive (on built records the resolved
duration is never null); otherwise the expand delay defaults to 150 ms and
the collapse delay to the fixed 4000 ms constant (`DEFAULT_DURATION −
2000`), each overridable via `autopilot.expand`/`autopilot.collapse` and
clamped into `[0, duration]`; with duration 6000 and no explicit autopilot
config the delays are 150 ms and 4000 ms. -/
theorem c4_autopilot_delays (merged : InternalSileoOptions) (id : String)
    (fb : Option SileoPosition) (sp : SileoPosition) (iid : Nat) :
    (resolveAutopilot merged none = {})
    ∧ ((merged.autopilot = some (Autopilot.bool false) ∨
          coalesceDuration merged.duration ≤ 0) →
        (buildSileoItem merged id fb sp iid).autoExpandDelayMs = none ∧
          (buildSileoItem merged id fb sp iid).autoCollapseDelayMs = none)
    ∧ (¬(merged.autopilot = some (Autopilot.bool false)) →
        0 < coalesceDuration merged.duration →
        ((buildSileoItem merged id fb sp iid).autoExpandDelayMs =
            some (clampTo (coalesceDuration merged.duration)
              ((autopilotExpandOverride merged.autopilot).getD AUTO_EXPAND_DELAY))
          ∧ (buildSileoItem merged id fb sp iid).autoCollapseDelayMs =
            some (clampTo (coalesceDuration merged.duration)
              ((autopilotCollapseOverride merged.autopilot).getD AUTO_COLLAPSE_DELAY))
          ∧ (∀ w, (buildSileoItem merged id fb sp iid).autoExpandDelayMs = some w →
              0 ≤ w ∧ w ≤ coalesceDuration merged.duration)
          ∧ (∀ w, (buildSileoItem merged id fb sp iid).autoCollapseDelayMs = some w →
              0 ≤ w ∧ w ≤ coalesceDuration merged.duration)))
    ∧ (merged.duration = some (some 6000) → merged.autopilot = none →
        (buildSileoItem merged id fb sp iid).autoExpandDelayMs = some 150 ∧
          (buildSileoItem merged id fb sp iid).autoCollapseDelayMs = some 4000) := by
  refine ⟨rfl, ?_, ?_, ?_⟩
  · intro hoff
    rw [buildSileoItem_autoExpand, buildSileoItem_autoCollapse,
      resolveAutopilot_off _ _ hoff]
    exact ⟨rfl, rfl⟩
  · intro hb hd
    rw [buildSileoItem_autoExpand, buildSileoItem_autoCollapse,
      resolveAutopilot_on _ _ hb hd]
    refine ⟨rfl, rfl, ?_, ?_⟩
    · intro w hw
      obtain rfl : clampTo (coalesceDuration merged.duration) _ = w :=
        Option.some.inj hw
      exact clampTo_bounds _ _ (le_of_lt hd)
    · intro w hw
      obtain rfl : clampTo (coalesceDuration merged.duration) _ = w :=
        Option.some.inj hw
      exact clampTo_bounds _ _ (le_of_lt hd)
  · intro hdur hap
    rw [buildSileoItem_autoExpand, buildSileoItem_autoCollapse, hdur]
    have hb : ¬(merged.autopilot = some (Autopilot.bool false)) := by
      rw [hap]; simp
    have : coalesceDuration (some (some 6000)) = 6000 := rfl
    rw [this, resolveAutopilot_on _ _ hb (by norm_num)]
    rw [hap]
    constructor <;> rfl

/-- Witness for C4 at the claim's own special case (duration 6000, no
autopilot config). -/
theorem c4_autopilot_delays_witness :
    (buildSileoItem { duration := some (some 6000) } "x" none
        SileoPosition.topRight 1).autoExpandDelayMs = some 150 ∧
      (buildSileoItem { duration := some (some 6000) } "x" none
        SileoPosition.topRight 1).autoCollapseDelayMs = some 4000 :=
  (c4_autopilot_delays { duration := some (some 6000) } "x" none
    SileoPosition.topRight 1).2.2.2 rfl rfl

end SileoVue

namespace SileoVue

/-! ## C1: one live record per id under repeated creation -/

/-- Number of non-exiting records carrying a given id. -/
def liveCount (items : List SileoItem) (x : String) : Nat :=
  items.countP fun t => decide (t.exiting = false ∧ t.id = x)

/-- In a list with pairwise-distinct ids, an id that occurs occurs on
exactly one record. -/
theorem countP_id_eq_one {l : List SileoItem} {x : String}
    (hnd : (l.map fun t => t.id).Nodup) (hmem : ∃ t ∈ l, t.id = x) :
    (l.countP fun t => decide (t.id = x)) = 1 := by
  induction l with
  | nil =>
    obtain ⟨t, ht, -⟩ := hmem
    exact absurd ht (by simp)
  | cons hd tl ih =>
    rw [List.map_cons, List.nodup_cons] at hnd
    by_cases hX : hd.id = x
    · rw [List.countP_cons_of_pos _ _ (by simpa using hX)]
      have hz : (tl.countP fun t => decide (t.id = x)) = 0 := by
        rw [List.countP_eq_zero]
        intro a ha
        simp only [decide_eq_true_eq]
        intro haX
        have : hd.id ∈ tl.map fun t => t.id := by
          rw [hX, ← haX]
          exact List.mem_map_of_mem _ ha
        exact hnd.1 this
      rw [hz]
    · rw [List.countP_cons_of_neg _ _ (by simpa using hX)]
      apply ih hnd.2
      obtain ⟨t, ht, htX⟩ := hmem
      rcases List.mem_cons.mp ht with rfl | ht'
      · exact absurd htX hX
      · exact ⟨t, ht', htX⟩

/-- After any `createToast`, the registry holds exactly one non-exiting
record with the resolved id (given distinct ids beforehand). -/
theorem createToast_liveCount {s : Sys} (o : InternalSileoOptions)
    (h1 : (s.toasts.map fun t => t.id).Nodup) :
    liveCount (createToast s o).toasts (resolvedId s o) = 1 := by
  rcases createToast_eq_or s o with ⟨⟨t0, hfind⟩, heq⟩ | ⟨hfind, heq⟩
  · rw [heq, storeUpdate_toasts]
    unfold liveCount
    rw [List.countP_map]
    have hpt : ∀ t ∈ s.toasts,
        (((fun t => decide (t.exiting = false ∧ t.id = resolvedId s o)) ∘
          (fun t => if t.id = resolvedId s o then createdItem s o else t)) t = true) ↔
          (decide (t.id = resolvedId s o) = true) := by
      intro t ht
      by_cases hX : t.id = resolvedId s o
      · simp [hX, createdItem_exiting, createdItem_id]
      · simp [hX]
    rw [List.countP_congr hpt]
    apply countP_id_eq_one h1
    have hmem := List.mem_of_find?_eq_some hfind
    have hp := List.find?_some hfind
    exact ⟨t0, (List.mem_filter.mp hmem).1, of_decide_eq_true hp⟩
  · rw [heq, storeUpdate_toasts]
    unfold liveCount
    rw [List.countP_append]
    have hz : ((s.toasts.filter fun t => ¬(t.id = resolvedId s o)).countP
        fun t => decide (t.exiting = false ∧ t.id = resolvedId s o)) = 0 := by
      rw [List.countP_eq_zero]
      intro a ha
      rw [List.mem_filter] at ha
      simp only [decide_eq_true_eq]
      rintro ⟨-, haX⟩
      exact absurd haX (by simpa using ha.2)
    rw [hz]
    simp [createdItem_exiting, createdItem_id]

theorem createToast_storeOptions (s : Sys) (o : InternalSileoOptions) :
    (createToast s o).storeOptions = s.storeOptions := by
  rcases createToast_eq_or s o with ⟨-, heq⟩ | ⟨-, heq⟩ <;> rw [heq] <;> rfl

/-- Folding `createToast` over a list of option objects: a sequence of
`show`/`success`/... calls. -/
def applyCreates (s : Sys) (ops : List InternalSileoOptions) : Sys :=
  ops.foldl createToast s

theorem applyCreates_append (s : Sys) (l1 l2 : List InternalSileoOptions) :
    applyCreates s (l1 ++ l2) = applyCreates (applyCreates s l1) l2 :=
  List.foldl_append _ _ _ _

theorem applyCreates_reachable {s : Sys} (hs : Reachable s)
    (ops : List InternalSileoOptions) : Reachable (applyCreates s ops) := by
  induction ops generalizing s with
  | nil => exact hs
  | cons o rest ih =>
    exact ih (Reachable.step s (Ev.create o) (createToast s o) hs rfl)

theorem applyCreates_storeOptions (s : Sys) (ops : List InternalSileoOptions) :
    (applyCreates s ops).storeOptions = s.storeOptions := by
  induction ops generalizing s with
  | nil => rfl
  | cons o rest ih =>
    show (applyCreates (createToast s o) rest).storeOptions = _
    rw [ih, createToast_storeOptions]

/-- C1: for every sequence of `createToast` calls resolving to one id `x`
(issued from any reachable state), the registry holds exactly one
non-exiting record with id `x` at every observation point, i.e. after
every nonempty prefix of the sequence. -/
theorem c1_one_live_record_per_id (s : Sys) (hs : Reachable s) (x : String)
    (ops : List InternalSileoOptions) (hops : ∀ o ∈ ops, resolvedId s o = x) :
    ∀ pre suf : List InternalSileoOptions, ops = pre ++ suf → pre ≠ [] →
      liveCount (applyCreates s pre).toasts x = 1 := by
  intro pre suf hsplit hne
  have hpre : ∀ o ∈ pre, resolvedId s o = x := fun o ho =>
    hops o (hsplit ▸ List.mem_append_left _ ho)
  rcases List.eq_nil_or_concat pre with rfl | ⟨pre', o, rfl⟩
  · exact absurd rfl hne
  · rw [List.concat_eq_append, applyCreates_append]
    show liveCount (createToast (applyCreates s pre') o).toasts x = 1
    have hreach := applyCreates_reachable hs pre'
    have hnd := (InvP_reachable hreach).1
    have hro : resolvedId (applyCreates s pre') o = x := by
      unfold resolvedId
      rw [applyCreates_storeOptions]
      exact hpre o (by rw [List.concat_eq_append]; exact List.mem_append_right _ (by simp))
    rw [← hro]
    exact createToast_liveCount o hnd

/-- Witness for C1: two successive creations with id `x` from the initial
state leave exactly one live record with id `x`. -/
theorem c1_one_live_record_per_id_witness :
    liveCount (applyCreates (init SileoPosition.topRight {})
      [{ id := some "x" }, { id := some "x" }]).toasts "x" = 1 :=
  c1_one_live_record_per_id (init SileoPosition.topRight {})
    (Reachable.init SileoPosition.topRight {}) "x"
    [{ id := some "x" }, { id := some "x" }] (by decide)
    [{ id := some "x" }, { id := some "x" }] [] rfl (by simp)

end SileoVue

namespace SileoVue

/-! ## C10: replacement happens in place -/

/-- The `latest` only depends on each record's `(id, exiting)` pair
(positionally). -/
theorem find_live_id_congr : ∀ (r1 r2 : List SileoItem),
    (r1.map fun t => (t.id, t.exiting)) = (r2.map fun t => (t.id, t.exiting)) →
    ((r1.find? fun t => !t.exiting).map fun t => t.id) =
      ((r2.find? fun t => !t.exiting).map fun t => t.id)
  | [], [], _ => rfl
  | [], b :: r2, h => by simp at h
  | a :: r1, [], h => by simp at h
  | a :: r1, b :: r2, h => by
    simp only [List.map_cons, List.cons.injEq, Prod.mk.injEq] at h
    obtain ⟨⟨hid, hex⟩, hrest⟩ := h
    by_cases hae : a.exiting
    · rw [List.find?_cons_of_neg _ (by simp [hae]),
        List.find?_cons_of_neg _ (by simp [← hex, hae])]
      exact find_live_id_congr r1 r2 hrest
    · rw [List.find?_cons_of_pos _ (by simpa using hae),
        List.find?_cons_of_pos _ (by simp [← hex]; simpa using hae)]
      simpa using hid

theorem latestId_congr {l1 l2 : List SileoItem}
    (h : (l1.map fun t => (t.id, t.exiting)) = l2.map fun t => (t.id, t.exiting)) :
    latestId l1 = latestId l2 := by
  unfold latestId
  apply find_live_id_congr
  rw [List.map_reverse, List.map_reverse, h]

/-- C10: when `createToast` is called with an id matching an existing
non-exiting record, the replacement lands at the same index: the list
keeps its length, every other index is untouched, the matching index
still carries a non-exiting record with that id, and the viewport's
`latest` (the "active" toast) is unchanged. -/
theorem c10_replace_in_place (s : Sys) (hs : Reachable s) (o : InternalSileoOptions)
    (hlive : ∃ t ∈ s.toasts, t.id = resolvedId s o ∧ t.exiting = false) :
    (createToast s o).toasts.length = s.toasts.length
    ∧ (∀ i (hi : i < s.toasts.length) (hi' : i < (createToast s o).toasts.length),
        ¬((s.toasts.get ⟨i, hi⟩).id = resolvedId s o) →
          (createToast s o).toasts.get ⟨i, hi'⟩ = s.toasts.get ⟨i, hi⟩)
    ∧ (∀ i (hi : i < s.toasts.length) (hi' : i < (createToast s o).toasts.length),
        (s.toasts.get ⟨i, hi⟩).id = resolvedId s o →
          ((createToast s o).toasts.get ⟨i, hi'⟩).id = resolvedId s o ∧
            ((createToast s o).toasts.get ⟨i, hi'⟩).exiting = false)
    ∧ latestId (createToast s o).toasts = latestId s.toasts := by
  have hnd := (InvP_reachable hs).1
  obtain ⟨t1, ht1, ht1id, ht1ex⟩ := hlive
  -- the if-branch of createToast is taken
  rcases createToast_eq_or s o with ⟨-, heq⟩ | ⟨hnone, -⟩
  · rw [heq, storeUpdate_toasts]
    -- every record with the resolved id is non-exiting (ids are unique)
    have hallX : ∀ t ∈ s.toasts, t.id = resolvedId s o → t.exiting = false := by
      intro t ht htid
      have : t = t1 := List.inj_on_of_nodup_map hnd ht ht1 (by rw [htid, ht1id])
      rw [this, ht1ex]
    refine ⟨by simp, ?_, ?_, ?_⟩
    · intro i hi hi' hne
      simp only [List.get_eq_getElem] at hne ⊢
      simp only [List.getElem_map]
      rw [if_neg hne]
    · intro i hi hi' hmatch
      simp only [List.get_eq_getElem] at hmatch ⊢
      simp only [List.getElem_map]
      rw [if_pos hmatch]
      exact ⟨createdItem_id s o, createdItem_exiting s o⟩
    · apply latestId_congr
      rw [List.map_map]
      apply List.map_congr_left
      intro t ht
      simp only [Function.comp_apply]
      by_cases hX : t.id = resolvedId s o
      · rw [if_pos hX]
        have hex : t.exiting = false := hallX t ht hX
        rw [createdItem_id, createdItem_exiting, hX, hex]
      · rw [if_neg hX]
  · exfalso
    rw [List.find?_eq_none] at hnone
    have hmem : t1 ∈ s.toasts.filter fun t => !t.exiting := by
      rw [List.mem_filter]
      exact ⟨ht1, by simp [ht1ex]⟩
    exact hnone t1 hmem (by simpa using ht1id)

/-- Witness for C10: replacing toast `x` (created from the initial state)
does not change which toast is `latest`. -/
theorem c10_replace_in_place_witness :
    latestId (createToast
      (applyCreates (init SileoPosition.topRight {}) [{ id := some "x" }])
      { id := some "x" }).toasts =
    latestId (applyCreates (init SileoPosition.topRight {})
      [{ id := some "x" }]).toasts :=
  (c10_replace_in_place
    (applyCreates (init SileoPosition.topRight {}) [{ id := some "x" }])
    (applyCreates_reachable (Reachable.init SileoPosition.topRight {}) _)
    { id := some "x" } (by decide)).2.2.2

end SileoVue

namespace SileoVue

/-! ## C2: the promise adapter -/

/-- After `createToast`, a record with the resolved id is in the registry. -/
theorem createToast_mem_id (s : Sys) (o : InternalSileoOptions) :
    ∃ t ∈ (createToast s o).toasts, t.id = resolvedId s o := by
  rcases createToast_eq_or s o with ⟨⟨t0, hfind⟩, heq⟩ | ⟨-, heq⟩
  · rw [heq, storeUpdate_toasts]
    have hmem := (List.mem_filter.mp (List.mem_of_find?_eq_some hfind)).1
    have hp := List.find?_some hfind
    have hid : t0.id = resolvedId s o := of_decide_eq_true hp
    refine ⟨createdItem s o, ?_, createdItem_id s o⟩
    rw [List.mem_map]
    refine ⟨t0, hmem, ?_⟩
    show (if t0.id = resolvedId s o then createdItem s o else t0) = createdItem s o
    exact if_pos hid
  · rw [heq, storeUpdate_toasts]
    exact ⟨createdItem s o, by simp, createdItem_id s o⟩

theorem updatedItem_state (s : Sys) (id : String) (o : InternalSileoOptions)
    (existing : SileoItem) :
    (updatedItem s id o existing).state = (mergeOptions s.storeOptions o).state := rfl

theorem mergeOptions_state_some (base o : InternalSileoOptions) (x : SileoState)
    (h : o.state = some x) : (mergeOptions base o).state = some x := by
  show (o.state <|> base.state) = some x
  rw [h]
  rfl

/-- The `updateToast` on a present id: a record with the id remains, and every
record with the id now carries the merged options' state. -/
theorem updateToast_states {s : Sys} {id : String} {o : InternalSileoOptions}
    (hex : ∃ t ∈ s.toasts, t.id = id) :
    (∃ t ∈ (updateToast s id o).toasts, t.id = id) ∧
      (∀ t ∈ (updateToast s id o).toasts, t.id = id →
        t.state = (mergeOptions s.storeOptions o).state) := by
  rcases updateToast_eq_or s id o with ⟨hnone, -⟩ | ⟨existing, hfind, heq⟩
  · exfalso
    rw [List.find?_eq_none] at hnone
    obtain ⟨t, ht, htid⟩ := hex
    exact hnone t ht (by simpa using htid)
  · rw [heq, storeUpdate_toasts]
    constructor
    · have hmem := List.mem_of_find?_eq_some hfind
      have hp := List.find?_some hfind
      have hid : existing.id = id := of_decide_eq_true hp
      refine ⟨updatedItem s id o existing, ?_, updatedItem_id s id o existing⟩
      rw [List.mem_map]
      refine ⟨existing, hmem, ?_⟩
      show (if existing.id = id then updatedItem s id o existing else existing) =
        updatedItem s id o existing
      exact if_pos hid
    · intro t ht htid
      rw [List.mem_map] at ht
      obtain ⟨t0, ht0, rfl⟩ := ht
      have htid' : (if t0.id = id then updatedItem s id o existing else t0).id = id := htid
      show (if t0.id = id then updatedItem s id o existing else t0).state = _
      by_cases hX : t0.id = id
      · rw [if_pos hX]
        exact updatedItem_state s id o existing
      · rw [if_neg hX] at htid'
        exact absurd htid' hX

/-- C2: `sileo.promise` hands the operation's own outcome back unchanged,
and drives the toast it created to exactly one final state: `action` on
fulfillment when an `action` option was supplied, otherwise `success` on
fulfillment, and `error` on rejection — never the opposite branch's state
and never still `loading`. -/
theorem c2_promise_adapter {T E : Type} (s : Sys) (outcome : OutcomeT T E)
    (popts : SileoPromiseOptions T E) :
    (sileoPromise s outcome popts).2 = outcome
    ∧ (∃ t ∈ (sileoPromise s outcome popts).1.toasts, t.id = promiseToastId s popts)
    ∧ (∀ t ∈ (sileoPromise s outcome popts).1.toasts, t.id = promiseToastId s popts →
        t.state = some (promiseFinalState outcome popts))
    ∧ (∀ data : T, outcome = OutcomeT.ok data →
        ¬(promiseFinalState outcome popts = SileoState.error))
    ∧ (∀ e : E, outcome = OutcomeT.err e →
        promiseFinalState outcome popts = SileoState.error)
    ∧ ¬(promiseFinalState outcome popts = SileoState.loading) := by
  have hexists : ∃ t ∈ (createToast s (promiseLoadingOpts popts)).toasts,
      t.id = promiseToastId s popts :=
    createToast_mem_id s (promiseLoadingOpts popts)
  cases outcome with
  | ok data =>
    cases haction : popts.action with
    | some act =>
      have hstep : sileoPromise s (OutcomeT.ok data) popts =
          (updateToast (createToast s (promiseLoadingOpts popts)) (promiseToastId s popts)
            { resolveOpt act data with
                state := some SileoState.action, id := some (promiseToastId s popts) },
            OutcomeT.ok data) := by
        unfold sileoPromise
        rw [haction]
      have hupd := updateToast_states (o :=
        { resolveOpt act data with
            state := some SileoState.action, id := some (promiseToastId s popts) }) hexists
      rw [hstep]
      refine ⟨rfl, hupd.1, ?_, ?_, ?_, ?_⟩
      · intro t ht htid
        rw [hupd.2 t ht htid, mergeOptions_state_some _ _ SileoState.action rfl]
        simp [promiseFinalState, haction]
      · intro data' _
        simp [promiseFinalState, haction]
      · intro e he
        exact OutcomeT.noConfusion he
      · simp [promiseFinalState, haction]
    | none =>
      have hstep : sileoPromise s (OutcomeT.ok data) popts =
          (updateToast (createToast s (promiseLoadingOpts popts)) (promiseToastId s popts)
            { resolveOpt popts.success data with
                state := some SileoState.success, id := some (promiseToastId s popts) },
            OutcomeT.ok data) := by
        unfold sileoPromise
        rw [haction]
      have hupd := updateToast_states (o :=
        { resolveOpt popts.success data with
            state := some SileoState.success, id := some (promiseToastId s popts) }) hexists
      rw [hstep]
      refine ⟨rfl, hupd.1, ?_, ?_, ?_, ?_⟩
      · intro t ht htid
        rw [hupd.2 t ht htid, mergeOptions_state_some _ _ SileoState.success rfl]
        simp [promiseFinalState, haction]
      · intro data' _
        simp [promiseFinalState, haction]
      · intro e he
        exact OutcomeT.noConfusion he
      · simp [promiseFinalState, haction]
  | err e =>
    have hstep : sileoPromise s (OutcomeT.err e) popts =
        (updateToast (createToast s (promiseLoadingOpts popts)) (promiseToastId s popts)
          { resolveOpt popts.error e with
              state := some SileoState.error, id := some (promiseToastId s popts) },
          OutcomeT.err e) := by
      unfold sileoPromise
      rfl
    have hupd := updateToast_states (o :=
      { resolveOpt popts.error e with
          state := some SileoState.error, id := some (promiseToastId s popts) }) hexists
    rw [hstep]
    refine ⟨rfl, hupd.1, ?_, ?_, ?_, ?_⟩
    · intro t ht htid
      rw [hupd.2 t ht htid, mergeOptions_state_some _ _ SileoState.error rfl]
      simp [promiseFinalState]
    · intro data' hd
      exact OutcomeT.noConfusion hd
    · intro e' _
      simp [promiseFinalState]
    · simp [promiseFinalState]

end SileoVue

namespace SileoVue

/-! ## Shared concrete states for witnesses and counterexamples -/

def initW : Sys := init SileoPosition.topRight {}

/-- State after `sileo.show({id: "x"})` from the initial state. -/
def sysC : Sys := createToast initW { id := some "x" }

theorem sysC_reachable : Reachable sysC :=
  Reachable.step _ (Ev.create { id := some "x" }) _
    (Reachable.init SileoPosition.topRight {}) rfl

/-- State after additionally `sileo.dismiss("x")`. -/
def sysCD : Sys := dismissToast sysC "x"

theorem sysCD_reachable : Reachable sysCD :=
  Reachable.step _ (Ev.dismiss "x") _ sysC_reachable rfl

theorem run_reachable {s : Sys} (hs : Reachable s) (evs : List Ev) {s' : Sys}
    (h : run s evs = some s') : Reachable s' := by
  induction evs generalizing s with
  | nil =>
    obtain rfl : s = s' := Option.some.inj h
    exact hs
  | cons e rest ih =>
    simp only [run] at h
    cases hstep : runEv s e with
    | none => rw [hstep] at h; exact absurd h (by simp)
    | some s1 =>
      rw [hstep] at h
      exact ih (Reachable.step s e s1 hs hstep) h

/-! ## Dismissal lemmas -/

/-- Three-way case analysis of `dismissToast`. -/
theorem dismissToast_cases3 (s : Sys) (id : String) :
    (s.toasts.find? (fun t => t.id = id) = none ∧ dismissToast s id = s) ∨
    (∃ item, s.toasts.find? (fun t => t.id = id) = some item ∧ item.exiting = true ∧
      dismissToast s id = s) ∨
    (∃ item, s.toasts.find? (fun t => t.id = id) = some item ∧ item.exiting = false ∧
      dismissToast s id =
        { storeUpdate s
            (fun prev => prev.map fun t => if t.id = id then { t with exiting := true } else t)
          with pending := s.pending ++ [(id, s.clock + EXIT_DURATION)] }) := by
  unfold dismissToast
  cases hfind : s.toasts.find? (fun t => t.id = id) with
  | none => exact Or.inl ⟨rfl, rfl⟩
  | some item =>
    by_cases hex : item.exiting
    · refine Or.inr (Or.inl ⟨item, rfl, hex, ?_⟩)
      show (if item.exiting = true then s else _) = s
      rw [if_pos hex]
    · refine Or.inr (Or.inr ⟨item, rfl, by simpa using hex, ?_⟩)
      show (if item.exiting = true then s else _) = _
      rw [if_neg hex]
      rfl

theorem dismissToast_ids (s : Sys) (id : String) :
    ((dismissToast s id).toasts.map fun t => t.id) = s.toasts.map fun t => t.id := by
  rcases dismissToast_eq_or s id with heq | ⟨-, heq⟩
  · rw [heq]
  · rw [heq]
    show ((s.toasts.map _).map _) = _
    exact map_ids_of_preserve (by intro t _; split <;> rfl)

theorem dismissToast_counter (s : Sys) (id : String) :
    (dismissToast s id).counter = s.counter := by
  rcases dismissToast_eq_or s id with heq | ⟨-, heq⟩ <;> rw [heq] <;> rfl

/-- When every record found under the id is already exiting (or none
exists), `dismissToast` is the identity. -/
theorem dismissToast_of_find_exiting {s : Sys} {id : String}
    (h : ∀ item, s.toasts.find? (fun t => t.id = id) = some item → item.exiting = true) :
    dismissToast s id = s := by
  rcases dismissToast_cases3 s id with ⟨-, heq⟩ | ⟨item, -, -, heq⟩ | ⟨item, hfind, hex, -⟩
  · exact heq
  · exact heq
  · rw [h item hfind] at hex
    exact absurd hex (by simp)

/-- The `dismissToast` on a live record (under unique ids): mark that id's
record exiting and schedule its removal `EXIT_DURATION` later. -/
theorem dismissToast_live_effect {s : Sys}
    (hnd : (s.toasts.map fun t => t.id).Nodup) {id : String}
    (hex : ∃ r ∈ s.toasts, r.id = id ∧ r.exiting = false) :
    (dismissToast s id).toasts =
      s.toasts.map (fun t => if t.id = id then { t with exiting := true } else t)
    ∧ (dismissToast s id).pending = s.pending ++ [(id, s.clock + EXIT_DURATION)] := by
  obtain ⟨r, hr, hrid, hrex⟩ := hex
  rcases dismissToast_cases3 s id with ⟨hnone, -⟩ | ⟨item, hfind, hexi, -⟩ | ⟨item, -, -, heq⟩
  · exfalso
    rw [List.find?_eq_none] at hnone
    exact hnone r hr (by simpa using hrid)
  · exfalso
    have hmem := List.mem_of_find?_eq_some hfind
    have hp := List.find?_some hfind
    have hitemid : item.id = id := of_decide_eq_true hp
    have : item = r := List.inj_on_of_nodup_map hnd hmem hr (by rw [hitemid, hrid])
    rw [this, hrex] at hexi
    exact absurd hexi (by simp)
  · rw [heq]
    exact ⟨rfl, rfl⟩

/-- The `find?` by id commutes with an id-preserving map. -/
theorem find?_id_map {l : List SileoItem} {id : String} {f : SileoItem → SileoItem}
    (hf : ∀ t, (f t).id = t.id) :
    (l.map f).find? (fun t => t.id = id) =
      (l.find? fun t => t.id = id).map f := by
  induction l with
  | nil => rfl
  | cons hd tl ih =>
    rw [List.map_cons]
    by_cases h : hd.id = id
    · rw [List.find?_cons_of_pos _ (by simp [hf, h]),
        List.find?_cons_of_pos _ (by simpa using h)]
      rfl
    · rw [List.find?_cons_of_neg _ (by simp [hf, h]),
        List.find?_cons_of_neg _ (by simpa using h), ih]

/-- A second `dismiss` of the same id is a no-op. -/
theorem dismissToast_idem (s : Sys) (id : String) :
    dismissToast (dismissToast s id) id = dismissToast s id := by
  rcases dismissToast_eq_or s id with heq | ⟨⟨item, hfind, hex⟩, heq⟩
  · rw [heq]
    exact heq
  · have hitemid : item.id = id := of_decide_eq_true (by
      have hp := List.find?_some hfind
      exact hp)
    have hpres : ∀ t : SileoItem,
        ((if t.id = id then { t with exiting := true } else t) : SileoItem).id = t.id := by
      intro t; split <;> rfl
    apply dismissToast_of_find_exiting
    intro item' hfind'
    rw [heq] at hfind'
    rw [storeUpdate_toasts] at hfind'
    rw [find?_id_map hpres, hfind] at hfind'
    have : (if item.id = id then ({ item with exiting := true } : SileoItem) else item) =
        item' := Option.some.inj hfind'
    rw [if_pos hitemid] at this
    rw [← this]

end SileoVue

namespace SileoVue

/-! ## C6: dismiss semantics -/

/-- C6 (amended): `dismiss(id)` is a no-op when the id is absent or
already exiting (so dismissing twice equals dismissing once); on a live
record it synchronously marks exactly the records with that id exiting,
leaving all others untouched, and schedules a removal 600 ms
(`EXIT_DURATION` = 10% of the default duration) later; when that removal
fires it deletes every record whose id equals the dismissed id — the
dismissed record if still present, but also any record created under the
same id after the dismiss — leaving records with other ids untouched. -/
theorem c6_dismiss_two_phase (s : Sys) (hs : Reachable s) (id : String) :
    ((∀ r ∈ s.toasts, r.id = id → r.exiting = true) → dismissToast s id = s)
    ∧ dismissToast (dismissToast s id) id = dismissToast s id
    ∧ ((∃ r ∈ s.toasts, r.id = id ∧ r.exiting = false) →
        (dismissToast s id).toasts =
          s.toasts.map (fun t => if t.id = id then { t with exiting := true } else t)
        ∧ (dismissToast s id).pending = s.pending ++ [(id, s.clock + EXIT_DURATION)])
    ∧ (∀ due s', runEv s (Ev.removalFire id due) = some s' →
        s'.toasts = s.toasts.filter fun t => ¬(t.id = id))
    ∧ (EXIT_DURATION : Int) * 10 = DEFAULT_DURATION := by
  refine ⟨?_, dismissToast_idem s id, ?_, ?_, by decide⟩
  · intro hall
    apply dismissToast_of_find_exiting
    intro item hfind
    have hp := List.find?_some hfind
    exact hall item (List.mem_of_find?_eq_some hfind) (of_decide_eq_true hp)
  · exact fun hex => dismissToast_live_effect (InvP_reachable hs).1 hex
  · intro due s' he
    simp only [runEv] at he
    split at he
    · obtain rfl := Option.some.inj he
      rfl
    · exact absurd he (by simp)

/-- Witness for C6: dismissing `x` twice from the concrete one-toast state
equals dismissing it once. -/
theorem c6_dismiss_two_phase_witness :
    dismissToast (dismissToast sysC "x") "x" = dismissToast sysC "x" :=
  (c6_dismiss_two_phase sysC sysC_reachable "x").2.1

/-- C6 counterexample: create `x`, dismiss it, create `x` again (a fresh
non-exiting record with `instanceId` 2, distinct from the dismissed
record); when the dismiss's removal timeout fires 600 ms later it deletes
that newly created record too, so the second update does *not* leave
"any record created after the dismiss" untouched. -/
theorem c6_counterexample :
    ((run initW [Ev.create { id := some "x" }, Ev.dismiss "x",
        Ev.create { id := some "x" }]).map
      fun s => s.toasts.map fun t => (t.id, t.instanceId, t.exiting)) =
      some [("x", 2, false)]
    ∧ ((run initW [Ev.create { id := some "x" }, Ev.dismiss "x",
        Ev.create { id := some "x" }, Ev.tick 600, Ev.removalFire "x" 600]).map
      fun s => s.toasts) = some [] := by decide

end SileoVue

namespace SileoVue

/-! ## C3: monotonicity of the exiting flag -/

theorem runEv_counter_mono {s s' : Sys} {e : Ev} (he : runEv s e = some s') :
    s.counter ≤ s'.counter := by
  cases e with
  | create options =>
    have hs' : createToast s options = s' := by simpa [runEv] using he
    subst hs'
    rcases createToast_eq_or s options with ⟨-, heq⟩ | ⟨-, heq⟩ <;> rw [heq] <;>
      · show s.counter ≤ s.counter + 1
        omega
  | update id options =>
    have hs' : updateToast s id options = s' := by simpa [runEv] using he
    subst hs'
    rcases updateToast_eq_or s id options with ⟨-, heq⟩ | ⟨_, -, heq⟩ <;> rw [heq]
    show s.counter ≤ s.counter + 1
    omega
  | dismiss id =>
    have hs' : dismissToast s id = s' := by simpa [runEv] using he
    subst hs'
    rw [dismissToast_counter]
  | clear position =>
    have hs' : clearToasts s position = s' := by simpa [runEv] using he
    subst hs'
    exact le_refl _
  | removalFire id due =>
    simp only [runEv] at he
    split at he
    · obtain rfl := Option.some.inj he
      exact le_refl _
    · exact absurd he (by simp)
  | mount =>
    simp only [runEv] at he
    cases hvp : s.vp with
    | some v => simp only [hvp] at he; exact absurd he (by simp)
    | none =>
      simp only [hvp] at he
      obtain rfl := Option.some.inj he
      exact le_refl _
  | unmount =>
    simp only [runEv] at he
    cases hvp : s.vp with
    | none => simp only [hvp] at he; exact absurd he (by simp)
    | some v =>
      simp only [hvp] at he
      obtain rfl := Option.some.inj he
      exact le_refl _
  | enter id =>
    simp only [runEv] at he
    cases hvp : s.vp with
    | none => simp only [hvp] at he; exact absurd he (by simp)
    | some v =>
      simp only [hvp] at he
      by_cases hhov : v.hovered <;>
        [rw [if_pos hhov] at he; rw [if_neg hhov] at he] <;>
        (obtain rfl := Option.some.inj he; exact le_refl _)
  | leave id =>
    simp only [runEv] at he
    cases hvp : s.vp with
    | none => simp only [hvp] at he; exact absurd he (by simp)
    | some v =>
      simp only [hvp] at he
      by_cases hhov : v.hovered <;>
        [rw [if_pos hhov] at he; rw [if_neg hhov] at he] <;>
        (obtain rfl := Option.some.inj he; exact le_refl _)
  | vpDismiss id =>
    simp only [runEv] at he
    cases hvp : s.vp with
    | none => simp only [hvp] at he; exact absurd he (by simp)
    | some v =>
      simp only [hvp] at he
      obtain rfl := Option.some.inj he
      rw [dismissToast_counter]
  | vpTimerFire key due =>
    simp only [runEv] at he
    cases hvp : s.vp with
    | none => simp only [hvp] at he; exact absurd he (by simp)
    | some v =>
      simp only [hvp] at he
      split at he
      · obtain rfl := Option.some.inj he
        rw [dismissToast_counter]
      · exact absurd he (by simp)
  | tick n =>
    simp only [runEv] at he
    split at he
    · obtain rfl := Option.some.inj he
      exact le_refl _
    · exact absurd he (by simp)

/-- Exiting-by-key monotonicity is preserved by an in-place replacement
with an item whose `instanceId` differs from the tracked one. -/
theorem mono_map_replace {l : List SileoItem} {X : String} {item : SileoItem}
    {rid : String} {riid : Nat}
    (hitem : ¬(riid = item.instanceId))
    (hall : ∀ r ∈ l, r.id = rid → r.instanceId = riid → r.exiting = true) :
    ∀ r' ∈ l.map (fun t => if t.id = X then item else t),
      r'.id = rid → r'.instanceId = riid → r'.exiting = true := by
  intro r' hr' hid hiid
  rw [List.mem_map] at hr'
  obtain ⟨t0, ht0, heq⟩ := hr'
  have heq' : (if t0.id = X then item else t0) = r' := heq
  by_cases hX : t0.id = X
  · rw [if_pos hX] at heq'
    exfalso
    apply hitem
    rw [← heq'] at hiid
    exact hiid.symm
  · rw [if_neg hX] at heq'
    rw [← heq'] at hid hiid ⊢
    exact hall t0 ht0 hid hiid

theorem mono_dismiss {s : Sys} {id : String} {rid : String} {riid : Nat}
    (hall : ∀ r ∈ s.toasts, r.id = rid → r.instanceId = riid → r.exiting = true) :
    ∀ r' ∈ (dismissToast s id).toasts,
      r'.id = rid → r'.instanceId = riid → r'.exiting = true := by
  rcases dismissToast_eq_or s id with heq | ⟨-, heq⟩
  · rw [heq]; exact hall
  · rw [heq, storeUpdate_toasts]
    intro r' hr' hid hiid
    rw [List.mem_map] at hr'
    obtain ⟨t0, ht0, heq'⟩ := hr'
    have heq'' : (if t0.id = id then ({ t0 with exiting := true } : SileoItem) else t0) =
      r' := heq'
    by_cases hX : t0.id = id
    · rw [if_pos hX] at heq''
      rw [← heq'']
    · rw [if_neg hX] at heq''
      rw [← heq''] at hid hiid ⊢
      exact hall t0 ht0 hid hiid

/-- Per-step monotonicity: no single operation turns an exiting record
instance (identified by id *and* instanceId) back into a live one. -/
theorem step_exiting_key_mono {s s' : Sys} {e : Ev} (he : runEv s e = some s')
    {rid : String} {riid : Nat} (hriid : riid ≤ s.counter)
    (hall : ∀ r ∈ s.toasts, r.id = rid → r.instanceId = riid → r.exiting = true) :
    ∀ r' ∈ s'.toasts, r'.id = rid → r'.instanceId = riid → r'.exiting = true := by
  cases e with
  | create options =>
    have hs' : createToast s options = s' := by simpa [runEv] using he
    subst hs'
    rcases createToast_eq_or s options with ⟨-, heq⟩ | ⟨-, heq⟩ <;>
      rw [heq, storeUpdate_toasts]
    · exact mono_map_replace (by rw [createdItem_instanceId]; omega) hall
    · intro r' hr' hid hiid
      rw [List.mem_append] at hr'
      rcases hr' with hr' | hr'
      · exact hall r' (List.mem_filter.mp hr').1 hid hiid
      · rw [List.mem_singleton] at hr'
        subst hr'
        rw [createdItem_instanceId] at hiid
        omega
  | update id options =>
    have hs' : updateToast s id options = s' := by simpa [runEv] using he
    subst hs'
    rcases updateToast_eq_or s id options with ⟨-, heq⟩ | ⟨existing, -, heq⟩
    · rw [heq]; exact hall
    · rw [heq, storeUpdate_toasts]
      exact mono_map_replace (by rw [updatedItem_instanceId]; omega) hall
  | dismiss id =>
    have hs' : dismissToast s id = s' := by simpa [runEv] using he
    subst hs'
    exact mono_dismiss hall
  | clear position =>
    have hs' : clearToasts s position = s' := by simpa [runEv] using he
    subst hs'
    unfold clearToasts
    rw [storeUpdate_toasts]
    cases position with
    | none => intro r' hr'; exact absurd hr' (by simp)
    | some pos =>
      intro r' hr'
      exact hall r' (List.mem_filter.mp hr').1
  | removalFire id due =>
    simp only [runEv] at he
    split at he
    · obtain rfl := Option.some.inj he
      rw [storeUpdate_toasts]
      intro r' hr'
      exact hall r' (List.mem_filter.mp hr').1
    · exact absurd he (by simp)
  | mount =>
    simp only [runEv] at he
    cases hvp : s.vp with
    | some v => simp only [hvp] at he; exact absurd he (by simp)
    | none =>
      simp only [hvp] at he
      obtain rfl := Option.some.inj he
      exact hall
  | unmount =>
    simp only [runEv] at he
    cases hvp : s.vp with
    | none => simp only [hvp] at he; exact absurd he (by simp)
    | some v =>
      simp only [hvp] at he
      obtain rfl := Option.some.inj he
      exact hall
  | enter id =>
    simp only [runEv] at he
    cases hvp : s.vp with
    | none => simp only [hvp] at he; exact absurd he (by simp)
    | some v =>
      simp only [hvp] at he
      by_cases hhov : v.hovered <;>
        [rw [if_pos hhov] at he; rw [if_neg hhov] at he] <;>
        (obtain rfl := Option.some.inj he; exact hall)
  | leave id =>
    simp only [runEv] at he
    cases hvp : s.vp with
    | none => simp only [hvp] at he; exact absurd he (by simp)
    | some v =>
      simp only [hvp] at he
      by_cases hhov : v.hovered <;>
        [rw [if_pos hhov] at he; rw [if_neg hhov] at he] <;>
        (obtain rfl := Option.some.inj he; exact hall)
  | vpDismiss id =>
    simp only [runEv] at he
    cases hvp : s.vp with
    | none => simp only [hvp] at he; exact absurd he (by simp)
    | some v =>
      simp only [hvp] at he
      obtain rfl := Option.some.inj he
      exact mono_dismiss hall
  | vpTimerFire key due =>
    simp only [runEv] at he
    cases hvp : s.vp with
    | none => simp only [hvp] at he; exact absurd he (by simp)
    | some v =>
      simp only [hvp] at he
      split at he
      · obtain rfl := Option.some.inj he
        exact mono_dismiss hall
      · exact absurd he (by simp)
  | tick n =>
    simp only [runEv] at he
    split at he
    · obtain rfl := Option.some.inj he
      exact hall
    · exact absurd he (by simp)

/-- Trace-level monotonicity. -/
theorem run_exiting_key_mono {s : Sys} (evs : List Ev) {s' : Sys}
    (hrun : run s evs = some s') {rid : String} {riid : Nat}
    (hriid : riid ≤ s.counter)
    (hall : ∀ r ∈ s.toasts, r.id = rid → r.instanceId = riid → r.exiting = true) :
    ∀ r' ∈ s'.toasts, r'.id = rid → r'.instanceId = riid → r'.exiting = true := by
  induction evs generalizing s with
  | nil =>
    obtain rfl : s = s' := Option.some.inj hrun
    exact hall
  | cons e rest ih =>
    simp only [run] at hrun
    cases hstep : runEv s e with
    | none => rw [hstep] at hrun; exact absurd hrun (by simp)
    | some s1 =>
      rw [hstep] at hrun
      exact ih hrun (le_trans hriid (runEv_counter_mono hstep))
        (step_exiting_key_mono hstep hriid hall)

end SileoVue

namespace SileoVue

/-- C3 (amended): a record *instance* — identified by its id together with
its `instanceId` — never reverts from exiting to non-exiting under any
further sequence of API calls; the dismissal that sets `exiting` schedules
the removal exactly `EXIT_DURATION` = 600 ms (10% of the default duration)
later.  (`createToast`/`updateToast` may install a *fresh* non-exiting
record with a new `instanceId` under the same id, which is how the claim
as stated fails.) -/
theorem c3_exiting_monotonic (s : Sys) (hs : Reachable s) (rid : String)
    (riid : Nat)
    (hex : ∃ r ∈ s.toasts, r.id = rid ∧ r.instanceId = riid ∧ r.exiting = true)
    (evs : List Ev) (s' : Sys) (hrun : run s evs = some s') :
    (∀ r' ∈ s'.toasts, r'.id = rid → r'.instanceId = riid → r'.exiting = true)
    ∧ (∀ (σ : Sys), Reachable σ → ∀ id : String,
        (∃ r ∈ σ.toasts, r.id = id ∧ r.exiting = false) →
        (dismissToast σ id).pending = σ.pending ++ [(id, σ.clock + EXIT_DURATION)])
    ∧ (EXIT_DURATION : Int) * 10 = DEFAULT_DURATION := by
  obtain ⟨r, hr, hrid, hriid, hrex⟩ := hex
  obtain ⟨hnd, hcnt, -⟩ := InvP_reachable hs
  refine ⟨?_, ?_, by decide⟩
  · apply run_exiting_key_mono evs hrun
    · rw [← hriid]
      exact hcnt r hr
    · intro r0 hr0 hr0id hr0iid
      have : r0 = r := List.inj_on_of_nodup_map hnd hr0 hr (by rw [hr0id, hrid])
      rw [this, hrex]
  · intro σ hσ id hexσ
    exact (dismissToast_live_effect (InvP_reachable hσ).1 hexσ).2

/-- Witness for C3, applied at the concrete dismissed state `sysCD` with
the record instance `("x", 1)` and one further `updateToast` step. -/
theorem c3_exiting_monotonic_witness :
    (EXIT_DURATION : Int) * 10 = DEFAULT_DURATION :=
  (c3_exiting_monotonic sysCD sysCD_reachable "x" 1 (by decide)
    [Ev.update "x" {}] (updateToast sysCD "x" {}) rfl).2.2

/-- C3 counterexample: after `create x; dismiss x` the registry's record
under id `x` has `exiting = true`; one further `updateToast("x", {})`
leaves a *non-exiting* record under the same id — the exiting flag, viewed
per id as the claim states it, reverts. -/
theorem c3_counterexample :
    ((run initW [Ev.create { id := some "x" }, Ev.dismiss "x"]).map
      fun s => s.toasts.map fun t => (t.id, t.exiting)) = some [("x", true)]
    ∧ ((run initW [Ev.create { id := some "x" }, Ev.dismiss "x",
        Ev.update "x" {}]).map
      fun s => s.toasts.map fun t => (t.id, t.exiting)) = some [("x", false)] := by
  decide

end SileoVue

namespace SileoVue

/-! ## C5: which steps can remove a record -/

theorem no_id_elim {s' : Sys} {rid : String}
    (hgone : ∀ t ∈ s'.toasts, ¬(t.id = rid))
    (hmem : rid ∈ s'.toasts.map fun t => t.id) : False := by
  rw [List.mem_map] at hmem
  obtain ⟨t, ht, htid⟩ := hmem
  exact hgone t ht htid

/-- C5 (amended): a record's id can vanish from the registry in a single
step only through `clear` (which skips the exiting phase entirely) or
through an exit-removal timeout firing for that id; `createToast`,
`updateToast`, `dismiss` (and hence natural timeout expiry, which merely
invokes dismiss) and all viewport events never remove an id from the
registry in the step itself. -/
theorem c5_removal_paths (s : Sys) (e : Ev) (s' : Sys) (he : runEv s e = some s')
    (r : SileoItem) (hr : r ∈ s.toasts) (hlive : r.exiting = false)
    (hgone : ∀ t ∈ s'.toasts, ¬(t.id = r.id)) :
    (∃ p, e = Ev.clear p) ∨ (∃ due, e = Ev.removalFire r.id due) := by
  cases e with
  | create options =>
    exfalso
    apply no_id_elim hgone
    have hs' : createToast s options = s' := by simpa [runEv] using he
    subst hs'
    rcases createToast_eq_or s options with ⟨-, heq⟩ | ⟨-, heq⟩ <;>
      rw [heq, storeUpdate_toasts]
    · rw [replace_ids (createdItem_id s options)]
      exact List.mem_map_of_mem _ hr
    · rw [List.map_append, List.mem_append]
      by_cases hX : r.id = resolvedId s options
      · right
        simp [createdItem_id, hX]
      · left
        apply List.mem_map_of_mem
        rw [List.mem_filter]
        exact ⟨hr, by simpa using hX⟩
  | update id options =>
    exfalso
    apply no_id_elim hgone
    have hs' : updateToast s id options = s' := by simpa [runEv] using he
    subst hs'
    rcases updateToast_eq_or s id options with ⟨-, heq⟩ | ⟨_, -, heq⟩
    · rw [heq]
      exact List.mem_map_of_mem _ hr
    · rw [heq, storeUpdate_toasts, replace_ids (updatedItem_id s id options _)]
      exact List.mem_map_of_mem _ hr
  | dismiss id =>
    exfalso
    apply no_id_elim hgone
    have hs' : dismissToast s id = s' := by simpa [runEv] using he
    subst hs'
    rw [dismissToast_ids]
    exact List.mem_map_of_mem _ hr
  | clear position => exact Or.inl ⟨position, rfl⟩
  | removalFire id due =>
    by_cases hid : id = r.id
    · exact Or.inr ⟨due, by rw [hid]⟩
    · exfalso
      simp only [runEv] at he
      split at he
      · obtain rfl := Option.some.inj he
        apply hgone r _ rfl
        rw [storeUpdate_toasts, List.mem_filter]
        refine ⟨hr, ?_⟩
        simp only [decide_eq_true_eq]
        intro hcontra
        exact hid hcontra.symm
      · exact absurd he (by simp)
  | mount =>
    exfalso
    apply no_id_elim hgone
    simp only [runEv] at he
    cases hvp : s.vp with
    | some v => simp only [hvp] at he; exact absurd he (by simp)
    | none =>
      simp only [hvp] at he
      obtain rfl := Option.some.inj he
      exact List.mem_map_of_mem _ hr
  | unmount =>
    exfalso
    apply no_id_elim hgone
    simp only [runEv] at he
    cases hvp : s.vp with
    | none => simp only [hvp] at he; exact absurd he (by simp)
    | some v =>
      simp only [hvp] at he
      obtain rfl := Option.some.inj he
      exact List.mem_map_of_mem _ hr
  | enter id =>
    exfalso
    apply no_id_elim hgone
    simp only [runEv] at he
    cases hvp : s.vp with
    | none => simp only [hvp] at he; exact absurd he (by simp)
    | some v =>
      simp only [hvp] at he
      by_cases hhov : v.hovered <;>
        [rw [if_pos hhov] at he; rw [if_neg hhov] at he] <;>
        (obtain rfl := Option.some.inj he; exact List.mem_map_of_mem _ hr)
  | leave id =>
    exfalso
    apply no_id_elim hgone
    simp only [runEv] at he
    cases hvp : s.vp with
    | none => simp only [hvp] at he; exact absurd he (by simp)
    | some v =>
      simp only [hvp] at he
      by_cases hhov : v.hovered <;>
        [rw [if_pos hhov] at he; rw [if_neg hhov] at he] <;>
        (obtain rfl := Option.some.inj he; exact List.mem_map_of_mem _ hr)
  | vpDismiss id =>
    exfalso
    apply no_id_elim hgone
    simp only [runEv] at he
    cases hvp : s.vp with
    | none => simp only [hvp] at he; exact absurd he (by simp)
    | some v =>
      simp only [hvp] at he
      obtain rfl := Option.some.inj he
      rw [dismissToast_ids]
      exact List.mem_map_of_mem _ hr
  | vpTimerFire key due =>
    exfalso
    apply no_id_elim hgone
    simp only [runEv] at he
    cases hvp : s.vp with
    | none => simp only [hvp] at he; exact absurd he (by simp)
    | some v =>
      simp only [hvp] at he
      split at he
      · obtain rfl := Option.some.inj he
        rw [dismissToast_ids]
        exact List.mem_map_of_mem _ hr
      · exact absurd he (by simp)
  | tick n =>
    exfalso
    apply no_id_elim hgone
    simp only [runEv] at he
    split at he
    · obtain rfl := Option.some.inj he
      exact List.mem_map_of_mem _ hr
    · exact absurd he (by simp)

/-- Witness for C5: the record created in `sysC` disappears under
`clear()`, and the theorem attributes the removal to the `clear` event. -/
theorem c5_removal_paths_witness :
    (∃ p, Ev.clear (none : Option SileoPosition) = Ev.clear p) ∨
      (∃ due, Ev.clear (none : Option SileoPosition) =
        Ev.removalFire (createdItem initW { id := some "x" }).id due) :=
  c5_removal_paths sysC (Ev.clear none) (clearToasts sysC none) rfl
    (createdItem initW { id := some "x" }) (by decide) (by decide) (by decide)

/-- C5 counterexample: a present, non-exiting record (`x`) is absent in
the very next registry state after `clear()`, with no step in between —
its `exiting` flag was never set to true, so removal did not pass through
the exiting phase. -/
theorem c5_counterexample :
    ((run initW [Ev.create { id := some "x" }]).map
      fun s => s.toasts.map fun t => (t.id, t.exiting)) = some [("x", false)]
    ∧ ((run initW [Ev.create { id := some "x" }, Ev.clear none]).map
      fun s => s.toasts) = some [] := by decide

end SileoVue

namespace SileoVue

/-! ## C7: hover-pause -/

/-- The schedule fold only ever appends timers. -/
theorem mem_schedule_mono (clock : Nat) :
    ∀ (items : List SileoItem) (ts : List TimerEntry) (en : TimerEntry),
      en ∈ ts → en ∈ schedule clock false ts items := by
  intro items
  induction items with
  | nil => intro ts en h; exact h
  | cons hd tl ih =>
    intro ts en h
    show en ∈ schedule clock false (scheduleStep clock ts hd) tl
    apply ih
    unfold scheduleStep
    split
    · exact h
    · split
      · exact h
      · split
        · exact h
        · exact List.mem_append_left _ h

/-- Every non-exiting record with positive coalesced duration whose key is
not yet in the map receives a fresh timer for its full duration. -/
theorem mem_schedule_of_live (clock : Nat) :
    ∀ (items : List SileoItem) (ts : List TimerEntry),
      (items.map timeoutKey).Nodup →
      ∀ item ∈ items, item.exiting = false → 0 < coalesceDuration item.duration →
        (∀ en ∈ ts, ¬(en.key = timeoutKey item)) →
        TimerEntry.mk (timeoutKey item) (clock + (coalesceDuration item.duration).toNat)
            true ∈ schedule clock false ts items := by
  intro items
  induction items with
  | nil =>
    intro ts _ item him
    exact absurd him (by simp)
  | cons hd tl ih =>
    intro ts hnd item him hex hdur hts
    rw [List.map_cons, List.nodup_cons] at hnd
    rcases List.mem_cons.mp him with rfl | hitl
    · show _ ∈ schedule clock false (scheduleStep clock ts item) tl
      have hstep : scheduleStep clock ts item =
          ts ++ [⟨timeoutKey item, clock + (coalesceDuration item.duration).toNat, true⟩] := by
        unfold scheduleStep
        rw [if_neg (by rw [hex]; simp), if_neg ?hany, if_neg (by omega)]
        case hany =>
          rw [List.any_eq_true]
          rintro ⟨en, hen, hp⟩
          exact hts en hen (of_decide_eq_true hp)
      rw [hstep]
      exact mem_schedule_mono clock tl _ _ (List.mem_append_right _ (by simp))
    · show _ ∈ schedule clock false (scheduleStep clock ts hd) tl
      apply ih _ hnd.2 item hitl hex hdur
      intro en hen
      have hkey_ne : ¬(timeoutKey hd = timeoutKey item) := by
        intro hcontra
        apply hnd.1
        rw [hcontra]
        exact List.mem_map_of_mem _ hitl
      unfold scheduleStep at hen
      split at hen
      · exact hts en hen
      · split at hen
        · exact hts en hen
        · split at hen
          · exact hts en hen
          · rw [List.mem_append] at hen
            rcases hen with hen | hen
            · exact hts en hen
            · rw [List.mem_singleton] at hen
              subst hen
              exact hkey_ne

/-- Distinct ids give distinct timer keys. -/
theorem nodup_keys_of_nodup_ids {l : List SileoItem}
    (h : (l.map fun t => t.id).Nodup) : (l.map timeoutKey).Nodup := by
  apply List.Nodup.of_map Prod.fst
  have hmm : (l.map timeoutKey).map Prod.fst = l.map fun t => t.id := by
    rw [List.map_map]
    rfl
  rw [hmm]
  exact h

/-- C7: while the pointer is over any toast of the mounted viewport, the
per-toast dismiss-timer map is empty — so no dismiss timer can fire, no
matter how much time elapses — and on pointer-leave every still-live
record (non-exiting, positive coalesced duration) receives a freshly
scheduled live timer due a full nominal duration after the current
instant, not a remainder. -/
theorem c7_hover_pause (s : Sys) (hs : Reachable s) (v : VpState)
    (hvp : s.vp = some v) (hh : v.hovered = true) :
    v.timers = []
    ∧ (∀ key due, runEv s (Ev.vpTimerFire key due) = none)
    ∧ (∀ lid s', runEv s (Ev.leave lid) = some s' →
        ∀ v', s'.vp = some v' →
          ∀ item ∈ v.view, item.exiting = false → 0 < coalesceDuration item.duration →
            TimerEntry.mk (timeoutKey item)
              (s.clock + (coalesceDuration item.duration).toNat) true ∈ v'.timers) := by
  obtain ⟨hnd, -, h3⟩ := InvP_reachable hs
  obtain ⟨hview, htimers⟩ := h3 v hvp
  have htim : v.timers = [] := htimers hh
  refine ⟨htim, ?_, ?_⟩
  · intro key due
    simp only [runEv, hvp, htim]
    rw [if_neg]
    rintro ⟨hany, -⟩
    rw [List.any_eq_true] at hany
    obtain ⟨en, hen, -⟩ := hany
    exact absurd hen (by simp)
  · intro lid s' he v' hv' item hitem hex hdur
    simp only [runEv, hvp] at he
    rw [if_pos hh] at he
    obtain rfl := Option.some.inj he
    have hv'eq := Option.some.inj hv'
    subst hv'eq
    show _ ∈ schedule s.clock false v.timers v.view
    rw [htim]
    apply mem_schedule_of_live s.clock v.view [] ?_ item hitem hex hdur
    · intro en hen
      exact absurd hen (by simp)
    · rw [hview]
      exact nodup_keys_of_nodup_ids hnd

end SileoVue

namespace SileoVue

/-- Concrete hovered viewport state: mount, create `x`, pointer enters
`x`. -/
def sysHov : Sys :=
  (run initW [Ev.mount, Ev.create { id := some "x" }, Ev.enter "x"]).getD initW

theorem sysHov_run :
    run initW [Ev.mount, Ev.create { id := some "x" }, Ev.enter "x"] = some sysHov := by
  decide

theorem sysHov_reachable : Reachable sysHov :=
  run_reachable (Reachable.init SileoPosition.topRight {}) _ sysHov_run

def vHov : VpState := sysHov.vp.getD ⟨[], false, [], none⟩

/-- Witness for C7: in the concrete hovered state the timer map is empty. -/
theorem c7_hover_pause_witness : vHov.timers = [] :=
  (c7_hover_pause sysHov sysHov_reachable vHov (by decide) (by decide)).1

/-! ## C8: timers at viewport teardown -/

/-- C8 (amended): unmounting removes the viewport (its `timers` map is
discarded with it), a per-toast dismiss timer can never fire without a
mounted viewport, and a freshly mounted viewport starts with an empty
timer map and no hover — so no per-toast dismiss timer tracked in the
map at unmount time can ever fire afterwards.  (The exit-removal
`setTimeout` created by `dismissToast` is *not* in that map and does fire
after unmount; see the counterexample.) -/
theorem c8_viewport_timer_teardown (s s' : Sys) :
    (runEv s Ev.unmount = some s' → s'.vp = none)
    ∧ (s.vp = none → ∀ key due, runEv s (Ev.vpTimerFire key due) = none)
    ∧ (runEv s Ev.mount = some s' → ∀ v, s'.vp = some v →
        v.timers = [] ∧ v.hovered = false) := by
  refine ⟨?_, ?_, ?_⟩
  · intro he
    simp only [runEv] at he
    cases hvp : s.vp with
    | none => simp only [hvp] at he; exact absurd he (by simp)
    | some v =>
      simp only [hvp] at he
      obtain rfl := Option.some.inj he
      rfl
  · intro hnone key due
    simp only [runEv, hnone]
  · intro he v hv
    simp only [runEv] at he
    cases hvp : s.vp with
    | some v0 => simp only [hvp] at he; exact absurd he (by simp)
    | none =>
      simp only [hvp] at he
      obtain rfl := Option.some.inj he
      have hveq := Option.some.inj hv
      rw [← hveq]
      exact ⟨rfl, rfl⟩

/-- Concrete mounted state. -/
def sysMnt : Sys := (run initW [Ev.mount]).getD initW

/-- Witness for C8: unmounting the concrete mounted viewport leaves no
viewport (and hence no tracked timers). -/
theorem c8_viewport_timer_teardown_witness :
    ((runEv sysMnt Ev.unmount).getD initW).vp = none :=
  (c8_viewport_timer_teardown sysMnt ((runEv sysMnt Ev.unmount).getD initW)).1
    (by decide)

/-- C8 counterexample: the viewport's own `dismissToast` sets an
exit-removal `setTimeout` that is not tracked in the `timers` map; after
the viewport unmounts, that timeout is still pending and fires 600 ms
later, mutating the registry — a timer set by the viewport scheduler that
is not cleared on unmount and fires after it. -/
theorem c8_counterexample :
    ((run initW [Ev.mount, Ev.create { id := some "x" }, Ev.vpDismiss "x",
        Ev.unmount]).map fun s => (s.vp, s.pending, s.toasts.length)) =
      some (none, [("x", 600)], 1)
    ∧ ((run initW [Ev.mount, Ev.create { id := some "x" }, Ev.vpDismiss "x",
        Ev.unmount, Ev.tick 600, Ev.removalFire "x" 600]).map
      fun s => s.toasts) = some [] := by decide

/-- Static promise options used by the C2 witness. -/
def poptsW : SileoPromiseOptions Nat Nat :=
  { success := OptResolver.static {}, error := OptResolver.static {} }

/-- Witness for C2: a fulfilled operation's value is returned unchanged. -/
theorem c2_promise_adapter_witness :
    (sileoPromise initW (OutcomeT.ok 5) poptsW).2 = OutcomeT.ok 5 :=
  (c2_promise_adapter initW (OutcomeT.ok 5) poptsW).1

end SileoVue
